import Mathlib

/-!
Verification of the komoe incremental build engine.

This file embeds, in Lean, the data structures and operations of the komoe
static-site builder that the specification talks about:

* `Relationships` (src/komoe/builder/relationships.py and
  src/komoe/src/komoe/builder/relationships.py — the two revisions have the
  same `update` logic): the template → documents reverse index.
* the invalidation planning of `Builder.__render_pages`
  (src/komoe/builder/__init__.py).
* `Snapshot.load` / `Snapshot.dump` and the `SnapshotRegistry`
  (src/komoe/builder/snapshots.py).
* `DocumentTree` (src/komoe/src/komoe/build/doctree.py, the revision that
  implements recursive pruning; src/komoe/builder/doctree.py differs only in
  `remove_document`, which there crashes on `self.parent_node`).

Python dicts are embedded as association lists (`List (String × β)`) with
insertion-order semantics: lookup returns the first (and, for a real dict,
only) matching entry, assignment replaces an existing entry in place or
appends a fresh one, and `del` removes the entry.  Python lists are Lean
lists; `list.remove(x)` is `List.erase` (first occurrence).
-/

/-- Python `d.get(k)` on a dict represented as an association list. -/
def dictGet? {β : Type} : List (String × β) → String → Option β
  | [], _ => none
  | (k0, v0) :: rest, k => if k0 = k then some v0 else dictGet? rest k

/-- Python `d[k] = v`: replace the entry in place if the key exists, else
append a fresh entry at the end (dict insertion order). -/
def dictSet {β : Type} : List (String × β) → String → β → List (String × β)
  | [], k, v => [(k, v)]
  | (k0, v0) :: rest, k, v =>
    if k0 = k then (k, v) :: rest else (k0, v0) :: dictSet rest k v

/-- Python `del d[k]` (total model: removing an absent key is a no-op; the
source only deletes keys it has just looked up). -/
def dictErase {β : Type} : List (String × β) → String → List (String × β)
  | [], _ => []
  | (k0, v0) :: rest, k => if k0 = k then rest else (k0, v0) :: dictErase rest k

/-- The keys of a dict, in insertion order. -/
def dictKeys {β : Type} (m : List (String × β)) : List String :=
  m.map Prod.fst

theorem dictGet?_dictSet_self {β : Type} (m : List (String × β)) (k : String) (v : β) :
    dictGet? (dictSet m k v) k = some v := by
  induction m with
  | nil => simp [dictSet, dictGet?]
  | cons p rest ih =>
    obtain ⟨k0, v0⟩ := p
    by_cases h : k0 = k <;> simp [dictSet, dictGet?, h, ih]

theorem dictGet?_dictSet_ne {β : Type} (m : List (String × β)) (k k' : String) (v : β)
    (h : k' ≠ k) : dictGet? (dictSet m k v) k' = dictGet? m k' := by
  have hkk : ¬ k = k' := fun hh => h hh.symm
  induction m with
  | nil => simp [dictSet, dictGet?, if_neg hkk]
  | cons p rest ih =>
    obtain ⟨k0, v0⟩ := p
    by_cases h0 : k0 = k
    · subst h0
      simp only [dictSet, if_pos rfl, dictGet?, if_neg hkk]
    · simp only [dictSet, if_neg h0, dictGet?]
      by_cases h1 : k0 = k'
      · simp [if_pos h1]
      · simp [if_neg h1, ih]

theorem dictGet?_some_mem {β : Type} {m : List (String × β)} {k : String} {v : β}
    (h : dictGet? m k = some v) : (k, v) ∈ m := by
  induction m with
  | nil => simp [dictGet?] at h
  | cons p rest ih =>
    obtain ⟨k0, v0⟩ := p
    by_cases h0 : k0 = k
    · subst h0
      rw [dictGet?, if_pos rfl] at h
      obtain rfl : v0 = v := Option.some.inj h
      exact List.mem_cons_self _ _
    · rw [dictGet?, if_neg h0] at h
      exact List.mem_cons_of_mem _ (ih h)

theorem dictKeys_dictSet_of_mem {β : Type} (m : List (String × β)) (k : String) (v : β) :
    k ∈ dictKeys m → dictKeys (dictSet m k v) = dictKeys m := by
  induction m with
  | nil => intro h; simp [dictKeys] at h
  | cons p rest ih =>
    obtain ⟨k0, v0⟩ := p
    intro h
    by_cases h0 : k0 = k
    · subst h0; simp [dictSet, dictKeys]
    · simp only [dictKeys, List.map_cons, List.mem_cons] at h
      rcases h with h | h
      · exact absurd h.symm h0
      · simp only [dictSet, if_neg h0, dictKeys, List.map_cons, List.cons.injEq, true_and]
        exact ih h

theorem dictKeys_dictSet_of_not_mem {β : Type} (m : List (String × β)) (k : String) (v : β) :
    k ∉ dictKeys m → dictKeys (dictSet m k v) = dictKeys m ++ [k] := by
  induction m with
  | nil => intro _; simp [dictSet, dictKeys]
  | cons p rest ih =>
    obtain ⟨k0, v0⟩ := p
    intro h
    simp only [dictKeys, List.map_cons, List.mem_cons, not_or] at h
    have h0 : ¬ k0 = k := fun hh => h.1 hh.symm
    simp only [dictSet, if_neg h0, dictKeys, List.map_cons, List.cons_append,
      List.cons.injEq, true_and]
    exact ih h.2

theorem dictSet_eq_self {β : Type} (m : List (String × β)) (k : String) (v : β) :
    (dictKeys m).Nodup → (k, v) ∈ m → dictSet m k v = m := by
  induction m with
  | nil => intro _ h; simp at h
  | cons p rest ih =>
    obtain ⟨k0, v0⟩ := p
    intro hk h
    simp only [dictKeys, List.map_cons, List.nodup_cons] at hk
    rcases List.mem_cons.mp h with h | h
    · obtain ⟨hk0, hv0⟩ := Prod.mk.inj h.symm
      simp [dictSet, hk0, hv0]
    · have hk0 : k0 ≠ k := by
        intro hh; subst hh
        exact hk.1 (List.mem_map.mpr ⟨(k0, v), h, rfl⟩)
      simp only [dictSet, if_neg hk0, List.cons.injEq, true_and]
      exact ih hk.2 h

theorem mem_iff_dictGet? {β : Type} (m : List (String × β)) (k : String) (v : β) :
    (dictKeys m).Nodup → ((k, v) ∈ m ↔ dictGet? m k = some v) := by
  induction m with
  | nil => intro _; simp [dictGet?]
  | cons p rest ih =>
    obtain ⟨k0, v0⟩ := p
    intro hk
    simp only [dictKeys, List.map_cons, List.nodup_cons] at hk
    by_cases h0 : k0 = k
    · subst h0
      rw [dictGet?, if_pos rfl]
      simp only [List.mem_cons, Option.some.injEq]
      constructor
      · rintro (h | h)
        · exact (Prod.mk.inj h.symm).2
        · exact absurd (List.mem_map.mpr ⟨(k0, v), h, rfl⟩) hk.1
      · rintro rfl; exact Or.inl rfl
    · rw [dictGet?, if_neg h0]
      simp only [List.mem_cons]
      rw [← ih hk.2]
      constructor
      · rintro (h | h)
        · exact absurd (Prod.mk.inj h).1.symm h0
        · exact h
      · exact Or.inr

theorem dictGet?_dictErase_self {β : Type} (m : List (String × β)) (k : String) :
    (dictKeys m).Nodup → dictGet? (dictErase m k) k = none := by
  induction m with
  | nil => intro _; simp [dictErase, dictGet?]
  | cons p rest ih =>
    obtain ⟨k0, v0⟩ := p
    intro hk
    simp only [dictKeys, List.map_cons, List.nodup_cons] at hk
    by_cases h0 : k0 = k
    · subst h0
      rw [dictErase, if_pos rfl]
      cases hg : dictGet? rest k0 with
      | none => rfl
      | some v =>
        exact absurd (List.mem_map.mpr ⟨(k0, v), dictGet?_some_mem hg, rfl⟩) hk.1
    · rw [dictErase, if_neg h0, dictGet?, if_neg h0]
      exact ih hk.2

theorem dictGet?_dictErase_ne {β : Type} (m : List (String × β)) (k k' : String)
    (h : k' ≠ k) : dictGet? (dictErase m k) k' = dictGet? m k' := by
  induction m with
  | nil => simp [dictErase]
  | cons p rest ih =>
    obtain ⟨k0, v0⟩ := p
    by_cases h0 : k0 = k
    · subst h0
      have hkk : ¬ k0 = k' := fun hh => h hh.symm
      rw [dictErase, if_pos rfl, dictGet?, if_neg hkk]
    · rw [dictErase, if_neg h0, dictGet?, dictGet?]
      by_cases h1 : k0 = k'
      · simp [if_pos h1]
      · simp [if_neg h1, ih]

/-!
## Relationships (src/komoe/builder/relationships.py, identical `update` in
src/komoe/src/komoe/builder/relationships.py)

`__rel` is a dict mapping a template name to the list of documents that used
it.  `update(source, base_template, other_templates)` starts from
`all_templates = [base_template] + [t.name for t in other_templates]`
(a plain list concatenation); we take the list of names directly.
-/

/-- The `__rel` dict: template name → list of dependent documents.  (Named
`RelMap` because `Rel` is taken by Mathlib.) -/
abbrev RelMap : Type := List (String × List String)

/-- `if source not in dependents: dependents.append(source)`. -/
def addDep (source : String) (deps : List String) : List String :=
  if source ∈ deps then deps else deps ++ [source]

/-- The `for old_template, dependents in self.__rel.items()` loop of
`Relationships.update`, threading the `all_templates` list through
`all_templates.remove(old_template)` (which erases the first occurrence).
Returns the leftover `all_templates` and the rewritten dict. -/
def updateLoop (source : String) : List String → List (String × List String) →
    List String × List (String × List String)
  | all, [] => (all, [])
  | all, (t, deps) :: rest =>
    if t ∈ all then
      let r := updateLoop source (all.erase t) rest
      (r.1, (t, addDep source deps) :: r.2)
    else
      let r := updateLoop source all rest
      (r.1, (t, deps.erase source) :: r.2)

/-- `Relationships.update(source, base_template, other_templates)`:
after the loop, `for new_template in all_templates: self.__rel[new_template]
= [source]`. -/
def Relationships.update (rel : RelMap) (source base_template : String)
    (other_templates : List String) : RelMap :=
  let all_templates := base_template :: other_templates
  let r := updateLoop source all_templates rel
  r.1.foldl (fun m t => dictSet m t [source]) r.2

/-- `Relationships.get_documents`: `self.__rel.get(template, [])`. -/
def Relationships.get_documents (rel : RelMap) (template : String) : List String :=
  (dictGet? rel template).getD []

/-- The dict invariant every reachable `Relationships` state satisfies:
keys are unique (it is a Python dict) and each dependents list is
duplicate-free (documents are appended only when absent, and the data model
describes the dependents as a set). -/
def RelWF (rel : RelMap) : Prop :=
  (dictKeys rel).Nodup ∧ ∀ p ∈ rel, List.Nodup (Prod.snd p)

/-- Erasing the loop keys one after the other from `all` (the final value of
`all_templates` after the loop). -/
def foldErase (all : List String) (ks : List String) : List String :=
  ks.foldl (fun a k => a.erase k) all

theorem updateLoop_fst (source : String) (rel : List (String × List String)) :
    ∀ all, (updateLoop source all rel).1 = foldErase all (dictKeys rel) := by
  induction rel with
  | nil => intro all; simp [updateLoop, foldErase, dictKeys]
  | cons p rest ih =>
    obtain ⟨t, deps⟩ := p
    intro all
    by_cases h : t ∈ all
    · simp only [updateLoop, if_pos h]
      simpa [foldErase, dictKeys] using ih (all.erase t)
    · simp only [updateLoop, if_neg h]
      rw [ih all]
      simp [foldErase, dictKeys, List.erase_of_not_mem h]

theorem count_foldErase (all ks : List String) (t : String) :
    (foldErase all ks).count t = all.count t - ks.count t := by
  induction ks generalizing all with
  | nil => simp [foldErase]
  | cons k rest ih =>
    show (foldErase (all.erase k) rest).count t = _
    rw [ih (all.erase k)]
    by_cases h : k = t
    · subst h
      rw [List.count_erase_self]
      simp [List.count_cons_self]
      omega
    · rw [List.count_erase_of_ne (fun hh => h hh.symm)]
      rw [List.count_cons_of_ne (fun hh => h hh.symm)]

theorem mem_foldErase (all ks : List String) (t : String) :
    t ∈ foldErase all ks ↔ ks.count t < all.count t := by
  rw [← List.count_pos_iff, count_foldErase]
  omega

theorem updateLoop_snd (source : String) (rel : List (String × List String)) :
    ∀ all, (dictKeys rel).Nodup →
      (updateLoop source all rel).2 =
        rel.map (fun p =>
          (p.1, if p.1 ∈ all then addDep source p.2 else p.2.erase source)) := by
  induction rel with
  | nil => intro all _; simp [updateLoop]
  | cons p rest ih =>
    obtain ⟨t, deps⟩ := p
    intro all hk
    simp only [dictKeys, List.map_cons, List.nodup_cons] at hk
    by_cases h : t ∈ all
    · simp only [updateLoop, if_pos h, List.map_cons, if_pos h, List.cons.injEq, true_and]
      rw [ih (all.erase t) hk.2]
      apply List.map_congr_left
      intro q hq
      have hne : q.1 ≠ t := by
        intro hh
        exact hk.1 (List.mem_map.mpr ⟨q, hq, hh⟩)
      simp [List.mem_erase_of_ne hne]
    · simp only [updateLoop, if_neg h, List.map_cons, if_neg h, List.cons.injEq, true_and]
      exact ih all hk.2

theorem dictKeys_updateLoop (source : String) (rel : List (String × List String)) :
    ∀ all, dictKeys ((updateLoop source all rel).2) = dictKeys rel := by
  induction rel with
  | nil => intro all; simp [updateLoop, dictKeys]
  | cons p rest ih =>
    obtain ⟨t, deps⟩ := p
    intro all
    by_cases h : t ∈ all
    · simp only [updateLoop, if_pos h, dictKeys, List.map_cons, List.cons.injEq, true_and]
      exact ih (all.erase t)
    · simp only [updateLoop, if_neg h, dictKeys, List.map_cons, List.cons.injEq, true_and]
      exact ih all

theorem dictGet?_foldAssign {β : Type} (rem : List String) (v : β) :
    ∀ (m : List (String × β)) (k : String),
      dictGet? (rem.foldl (fun acc t => dictSet acc t v) m) k =
        if k ∈ rem then some v else dictGet? m k := by
  induction rem with
  | nil => intro m k; simp
  | cons r rest ih =>
    intro m k
    rw [List.foldl_cons, ih (dictSet m r v) k]
    by_cases h1 : k ∈ rest
    · simp [h1, List.mem_cons]
    · by_cases h2 : k = r
      · subst h2
        simp [h1, dictGet?_dictSet_self, List.mem_cons]
      · simp [h1, h2, dictGet?_dictSet_ne m r k v h2, List.mem_cons]

theorem mem_dictKeys_foldAssign {β : Type} (rem : List String) (v : β) :
    ∀ (m : List (String × β)) (k : String),
      (k ∈ dictKeys (rem.foldl (fun acc t => dictSet acc t v) m) ↔
        k ∈ dictKeys m ∨ k ∈ rem) := by
  induction rem with
  | nil => intro m k; simp
  | cons r rest ih =>
    intro m k
    rw [List.foldl_cons, ih (dictSet m r v) k]
    by_cases hr : r ∈ dictKeys m
    · rw [dictKeys_dictSet_of_mem m r v hr]
      simp only [List.mem_cons]
      constructor
      · rintro (h | h)
        · exact Or.inl h
        · exact Or.inr (Or.inr h)
      · rintro (h | h | h)
        · exact Or.inl h
        · exact Or.inl (h ▸ hr)
        · exact Or.inr h
    · rw [dictKeys_dictSet_of_not_mem m r v hr]
      simp only [List.mem_append, List.mem_cons, List.not_mem_nil, or_false,
        List.mem_singleton]
      tauto

theorem nodup_dictKeys_foldAssign {β : Type} (rem : List String) (v : β) :
    ∀ (m : List (String × β)), (dictKeys m).Nodup →
      (dictKeys (rem.foldl (fun acc t => dictSet acc t v) m)).Nodup := by
  induction rem with
  | nil => intro m hm; simpa using hm
  | cons r rest ih =>
    intro m hm
    rw [List.foldl_cons]
    apply ih
    by_cases hr : r ∈ dictKeys m
    · rwa [dictKeys_dictSet_of_mem m r v hr]
    · rw [dictKeys_dictSet_of_not_mem m r v hr]
      simp [List.nodup_append, hm, hr]

theorem foldAssign_fixpoint {β : Type} (rem : List String) (v : β) :
    ∀ (m : List (String × β)), (dictKeys m).Nodup → (∀ t ∈ rem, (t, v) ∈ m) →
      rem.foldl (fun acc t => dictSet acc t v) m = m := by
  induction rem with
  | nil => intro m _ _; rfl
  | cons r rest ih =>
    intro m hm hmem
    rw [List.foldl_cons, dictSet_eq_self m r v hm (hmem r (List.mem_cons_self _ _))]
    exact ih m hm (fun t ht => hmem t (List.mem_cons_of_mem _ ht))

theorem dictGet?_map_val {β γ : Type} (g : String → β → γ) (m : List (String × β))
    (k : String) :
    dictGet? (m.map (fun p => (p.1, g p.1 p.2))) k = (dictGet? m k).map (g k) := by
  induction m with
  | nil => simp [dictGet?]
  | cons p rest ih =>
    obtain ⟨k0, v0⟩ := p
    by_cases h0 : k0 = k
    · subst h0
      simp [dictGet?]
    · simp [dictGet?, h0, ih]

theorem mem_addDep_self (s : String) (deps : List String) : s ∈ addDep s deps := by
  unfold addDep
  by_cases h : s ∈ deps <;> simp [h]

theorem mem_addDep_iff (s d : String) (deps : List String) (h : d ≠ s) :
    d ∈ addDep s deps ↔ d ∈ deps := by
  unfold addDep
  by_cases hs : s ∈ deps <;> simp [hs, h]

theorem nodup_addDep (s : String) (deps : List String) (h : deps.Nodup) :
    (addDep s deps).Nodup := by
  unfold addDep
  by_cases hs : s ∈ deps <;> simp [hs, h, List.nodup_append]

/-- Characterisation of `Relationships.update` through lookups: a template
that is still in the leftover `all_templates` after the loop ends up mapping
to exactly `[source]`; any other template keeps its entry, rewritten by the
loop body. -/
theorem dictGet?_update (rel : RelMap) (s b : String) (o : List String) (t : String)
    (hk : (dictKeys rel).Nodup) :
    dictGet? (Relationships.update rel s b o) t =
      if t ∈ foldErase (b :: o) (dictKeys rel) then some [s]
      else (dictGet? rel t).map
        (fun deps => if t ∈ (b :: o) then addDep s deps else deps.erase s) := by
  unfold Relationships.update
  rw [dictGet?_foldAssign, updateLoop_fst, updateLoop_snd s rel (b :: o) hk,
    dictGet?_map_val (fun u deps => if u ∈ (b :: o) then addDep s deps else deps.erase s)
      rel t]

theorem mem_dictKeys_update (rel : RelMap) (s b : String) (o : List String) (t : String) :
    t ∈ dictKeys (Relationships.update rel s b o) ↔
      t ∈ dictKeys rel ∨ t ∈ foldErase (b :: o) (dictKeys rel) := by
  unfold Relationships.update
  rw [mem_dictKeys_foldAssign, updateLoop_fst, dictKeys_updateLoop]

theorem nodup_dictKeys_update (rel : RelMap) (s b : String) (o : List String)
    (hk : (dictKeys rel).Nodup) :
    (dictKeys (Relationships.update rel s b o)).Nodup := by
  unfold Relationships.update
  apply nodup_dictKeys_foldAssign
  rwa [dictKeys_updateLoop]

theorem addDep_of_mem {s : String} {deps : List String} (h : s ∈ deps) :
    addDep s deps = deps := by
  unfold addDep
  simp [h]

theorem nodup_values_update (rel : RelMap) (s b : String) (o : List String)
    (hwf : RelWF rel) :
    ∀ p ∈ Relationships.update rel s b o, List.Nodup (Prod.snd p) := by
  obtain ⟨hk, hdeps⟩ := hwf
  intro p hp
  obtain ⟨t, d⟩ := p
  have hk' := nodup_dictKeys_update rel s b o hk
  have hd := (mem_iff_dictGet? _ t d hk').mp hp
  rw [dictGet?_update rel s b o t hk] at hd
  by_cases hfe : t ∈ foldErase (b :: o) (dictKeys rel)
  · rw [if_pos hfe] at hd
    obtain rfl : [s] = d := Option.some.inj hd
    simp
  · rw [if_neg hfe] at hd
    cases hrelt : dictGet? rel t with
    | none => rw [hrelt] at hd; simp at hd
    | some deps =>
      rw [hrelt] at hd
      simp only [Option.map_some'] at hd
      obtain rfl := Option.some.inj hd
      have hnd : deps.Nodup := hdeps (t, deps) (dictGet?_some_mem hrelt)
      by_cases hmem : t ∈ (b :: o)
      · rw [if_pos hmem]
        exact nodup_addDep s deps hnd
      · rw [if_neg hmem]
        exact hnd.erase s

theorem relWF_update (rel : RelMap) (s b : String) (o : List String)
    (hwf : RelWF rel) : RelWF (Relationships.update rel s b o) :=
  ⟨nodup_dictKeys_update rel s b o hwf.1, nodup_values_update rel s b o hwf⟩

theorem update_loop_fixes (rel : RelMap) (s b : String) (o : List String)
    (hwf : RelWF rel) :
    (updateLoop s (b :: o) (Relationships.update rel s b o)).2 =
      Relationships.update rel s b o := by
  obtain ⟨hk, hdeps⟩ := hwf
  have hk' := nodup_dictKeys_update rel s b o hk
  rw [updateLoop_snd s _ (b :: o) hk']
  have hfix : ∀ p ∈ Relationships.update rel s b o,
      (fun p : String × List String =>
        (p.1, if p.1 ∈ (b :: o) then addDep s p.2 else p.2.erase s)) p = id p := by
    intro p hp
    obtain ⟨t, d⟩ := p
    have hd := (mem_iff_dictGet? _ t d hk').mp hp
    rw [dictGet?_update rel s b o t hk] at hd
    by_cases hfe : t ∈ foldErase (b :: o) (dictKeys rel)
    · rw [if_pos hfe] at hd
      obtain rfl : [s] = d := Option.some.inj hd
      have hall : t ∈ (b :: o) := by
        have hc := (mem_foldErase _ _ t).mp hfe
        rw [← List.count_pos_iff]
        omega
      simp only [id_eq, Prod.mk.injEq, true_and, if_pos hall]
      exact addDep_of_mem (by simp)
    · rw [if_neg hfe] at hd
      cases hrelt : dictGet? rel t with
      | none => rw [hrelt] at hd; simp at hd
      | some deps =>
        rw [hrelt] at hd
        simp only [Option.map_some'] at hd
        obtain rfl := Option.some.inj hd
        by_cases hmem : t ∈ (b :: o)
        · simp only [id_eq, Prod.mk.injEq, true_and, if_pos hmem]
          exact addDep_of_mem (mem_addDep_self s deps)
        · simp only [id_eq, Prod.mk.injEq, true_and, if_neg hmem]
          have hnd : deps.Nodup := hdeps (t, deps) (dictGet?_some_mem hrelt)
          apply List.erase_of_not_mem
          intro hin
          exact ((hnd.mem_erase_iff).mp hin).1 rfl
  rw [List.map_congr_left hfix, List.map_id]

/-- Every leftover template of a second identical `update` already maps to
exactly `[source]` after the first one. -/
theorem update_leftover_mapsto (rel : RelMap) (s b : String) (o : List String)
    (hwf : RelWF rel) :
    ∀ t ∈ foldErase (b :: o) (dictKeys (Relationships.update rel s b o)),
      (t, [s]) ∈ Relationships.update rel s b o := by
  obtain ⟨hk, hdeps⟩ := hwf
  have hk' := nodup_dictKeys_update rel s b o hk
  intro t hfe
  have hcnt := (mem_foldErase _ _ t).mp hfe
  have htall : t ∈ (b :: o) := by
    by_contra hno
    have : (b :: o).count t = 0 := List.count_eq_zero.mpr hno
    omega
  have htkeys' : t ∈ dictKeys (Relationships.update rel s b o) := by
    rw [mem_dictKeys_update]
    by_cases htk : t ∈ dictKeys rel
    · exact Or.inl htk
    · right
      rw [mem_foldErase]
      have h0 : (dictKeys rel).count t = 0 := List.count_eq_zero.mpr htk
      have h1 : 0 < (b :: o).count t := List.count_pos_iff.mpr htall
      omega
  have hone : (dictKeys (Relationships.update rel s b o)).count t = 1 := by
    have hle := List.nodup_iff_count_le_one.mp hk' t
    have hge := List.count_pos_iff.mpr htkeys'
    omega
  have hlerel := List.nodup_iff_count_le_one.mp hk t
  have hfe0 : t ∈ foldErase (b :: o) (dictKeys rel) := by
    rw [mem_foldErase]
    omega
  have hget : dictGet? (Relationships.update rel s b o) t = some [s] := by
    rw [dictGet?_update rel s b o t hk, if_pos hfe0]
  exact (mem_iff_dictGet? _ t [s] hk').mpr hget

/-- C5: `Relationships.update` is idempotent: for every well-formed graph
state (a Python dict, so keys are unique, and duplicate-free dependents
lists, as in every reachable state) and all arguments `(document,
primaryTemplate, otherTemplatesUsed)`, applying `update` twice with
identical arguments yields the same graph as applying it once. -/
theorem relationships_update_idempotent (rel : RelMap) (s b : String)
    (o : List String) (hwf : RelWF rel) :
    Relationships.update (Relationships.update rel s b o) s b o
      = Relationships.update rel s b o := by
  have hk' := nodup_dictKeys_update rel s b o hwf.1
  have step1 := update_loop_fixes rel s b o hwf
  have step2 := update_leftover_mapsto rel s b o hwf
  show (updateLoop s (b :: o) (Relationships.update rel s b o)).1.foldl
      (fun m t => dictSet m t [s]) (updateLoop s (b :: o) (Relationships.update rel s b o)).2
    = Relationships.update rel s b o
  rw [updateLoop_fst, step1]
  exact foldAssign_fixpoint _ [s] _ hk' step2

/-- Witness for C5 at a concrete graph and arguments. -/
theorem relationships_update_idempotent_witness :
    RelWF [("base.html", ["a.md"]), ("nav.html", ["a.md", "b.md"])] ∧
    Relationships.update
        (Relationships.update [("base.html", ["a.md"]), ("nav.html", ["a.md", "b.md"])]
          "b.md" "base.html" ["footer.html"])
        "b.md" "base.html" ["footer.html"]
      = Relationships.update [("base.html", ["a.md"]), ("nav.html", ["a.md", "b.md"])]
          "b.md" "base.html" ["footer.html"] :=
  ⟨⟨by decide, by decide⟩,
   relationships_update_idempotent [("base.html", ["a.md"]), ("nav.html", ["a.md", "b.md"])]
     "b.md" "base.html" ["footer.html"] ⟨by decide, by decide⟩⟩

/-- C6 as stated is false: with `other_templates` containing the primary
template again (`all_templates` is built by list concatenation, not set
union), the final `self.__rel[new_template] = [source]` overwrites the
dependents of an existing template, dropping the association of the other
document `d0`. -/
theorem relationships_update_frame_counterexample :
    "d0" ∈ Relationships.get_documents [("t", ["d0"])] "t" ∧
    "d0" ≠ "d1" ∧
    "d0" ∉ Relationships.get_documents
        (Relationships.update [("t", ["d0"])] "d1" "t" ["t"]) "t" := by
  decide

/-- C6 amended: provided the combined template list
`[primaryTemplate] + otherTemplatesUsed` contains no duplicate name (and the
graph is a dict, so keys are unique), `update` only adds or drops
associations for `document`: every other document keeps exactly its previous
associations. -/
theorem relationships_update_frame (rel : RelMap) (s b : String) (o : List String)
    (d' t : String) (hk : (dictKeys rel).Nodup) (hall : (b :: o).Nodup)
    (hd : d' ≠ s) :
    d' ∈ Relationships.get_documents (Relationships.update rel s b o) t ↔
      d' ∈ Relationships.get_documents rel t := by
  unfold Relationships.get_documents
  rw [dictGet?_update rel s b o t hk]
  by_cases hfe : t ∈ foldErase (b :: o) (dictKeys rel)
  · rw [if_pos hfe]
    have hcnt := (mem_foldErase _ _ t).mp hfe
    have hle := List.nodup_iff_count_le_one.mp hall t
    have htk : t ∉ dictKeys rel := by
      intro hmem
      have := List.count_pos_iff.mpr hmem
      omega
    have hnone : dictGet? rel t = none := by
      cases hg : dictGet? rel t with
      | none => rfl
      | some v => exact absurd (List.mem_map.mpr ⟨(t, v), dictGet?_some_mem hg, rfl⟩) htk
    rw [hnone]
    simp [hd]
  · rw [if_neg hfe]
    cases hg : dictGet? rel t with
    | none => simp
    | some deps =>
      simp only [Option.map_some', Option.getD_some]
      by_cases hmem : t ∈ (b :: o)
      · rw [if_pos hmem]
        exact mem_addDep_iff s d' deps hd
      · rw [if_neg hmem]
        exact List.mem_erase_of_ne hd

/-- Witness for the amended C6 at a concrete graph and arguments. -/
theorem relationships_update_frame_witness :
    (dictKeys [("t", ["d0"]), ("u", ["d0", "d1"])]).Nodup ∧
    (["t", "nav.html"] : List String).Nodup ∧ ("d0" : String) ≠ "d1" ∧
    ("d0" ∈ Relationships.get_documents
        (Relationships.update [("t", ["d0"]), ("u", ["d0", "d1"])] "d1" "t" ["nav.html"]) "u" ↔
      "d0" ∈ Relationships.get_documents [("t", ["d0"]), ("u", ["d0", "d1"])] "u") :=
  ⟨by decide, by decide, by decide,
   relationships_update_frame [("t", ["d0"]), ("u", ["d0", "d1"])] "d1" "t" ["nav.html"]
     "d0" "u" (by decide) (by decide) (by decide)⟩

/-!
## Invalidation planning (src/komoe/builder/__init__.py, `Builder.__render_pages`)

The classification loop partitions `self.__snapshots.diff("source").items()`
into `created`, `modified`, `removed`, `same` (appending in dict order, which
is what per-class ordered filters produce).  When `same` is non-empty, the
documents of every MODIFIED template are accumulated into `need_refresh` and
every `same` file found there is appended to `modified`.  The pages are then
rendered in the order `created`, then `modified`, and removed pages are
processed last; when no list is non-empty the function logs and returns
without rendering anything.
-/

/-- The diff classifications of src/komoe/builder/snapshots.py. -/
inductive Diff where
  | ADDED
  | MODIFIED
  | SAME
  | DELETED
deriving DecidableEq

/-- The files of one classification, in dict order (the loop appends each
file to the list of its classification). -/
def classOf (diffs : List (String × Diff)) (c : Diff) : List String :=
  (diffs.filter (fun fd => fd.2 = c)).map Prod.fst

/-- `need_refresh`: the concatenation of `get_documents(file)` over all
MODIFIED templates, in dict order. -/
def needRefresh (templatesDiff : List (String × Diff)) (rel : RelMap) : List String :=
  templatesDiff.foldl
    (fun acc fd =>
      if fd.2 = Diff.MODIFIED then acc ++ Relationships.get_documents rel fd.1 else acc)
    []

/-- The final `modified` list: the source-MODIFIED files, then (when `same`
is non-empty) every `same` file that occurs in `need_refresh`. -/
def renderModified (src tmpl : List (String × Diff)) (rel : RelMap) : List String :=
  if classOf src Diff.SAME ≠ [] then
    classOf src Diff.MODIFIED
      ++ (classOf src Diff.SAME).filter (fun f => f ∈ needRefresh tmpl rel)
  else classOf src Diff.MODIFIED

/-- The plan of `__render_pages`: the pages rendered (in order: `created`
then `modified`) and the pages removed.  When nothing changed the function
returns early with no actions. -/
def renderPlan (src tmpl : List (String × Diff)) (rel : RelMap) :
    List String × List String :=
  if classOf src Diff.ADDED = [] ∧ renderModified src tmpl rel = []
      ∧ classOf src Diff.DELETED = [] then ([], [])
  else (classOf src Diff.ADDED ++ renderModified src tmpl rel, classOf src Diff.DELETED)

theorem mem_dictKeys_of_mem_classOf {diffs : List (String × Diff)} {c : Diff}
    {d : String} (h : d ∈ classOf diffs c) : d ∈ dictKeys diffs := by
  unfold classOf at h
  obtain ⟨p, hp, rfl⟩ := List.mem_map.mp h
  exact List.mem_map.mpr ⟨p, (List.mem_filter.mp hp).1, rfl⟩

/-- With unique keys, the number of occurrences of `d` in the class list of
`c'` is 1 when `d`'s classification is `c'` and 0 otherwise. -/
theorem count_classOf (src : List (String × Diff)) (d : String) (c c' : Diff)
    (hk : (dictKeys src).Nodup) (hmem : (d, c) ∈ src) :
    (classOf src c').count d = if c = c' then 1 else 0 := by
  induction src with
  | nil => simp at hmem
  | cons p rest ih =>
    obtain ⟨k0, v0⟩ := p
    simp only [dictKeys, List.map_cons, List.nodup_cons] at hk
    rcases List.mem_cons.mp hmem with h | h
    · obtain ⟨h1, h2⟩ := Prod.mk.inj h
      subst h1; subst h2
      have hz : (classOf rest c').count d = 0 := by
        rw [List.count_eq_zero]
        intro hin
        exact hk.1 (mem_dictKeys_of_mem_classOf hin)
      by_cases hc : c = c'
      · subst hc
        have hcons : classOf ((d, c) :: rest) c = d :: classOf rest c := by
          simp [classOf, List.filter_cons]
        rw [hcons, if_pos rfl, List.count_cons_self, hz]
      · have hcons : classOf ((d, c) :: rest) c' = classOf rest c' := by
          simp [classOf, List.filter_cons, hc]
        rw [hcons, if_neg hc, hz]
    · have hne : k0 ≠ d := fun hh =>
        hk.1 (hh ▸ List.mem_map.mpr ⟨(d, c), h, rfl⟩)
      by_cases hv : v0 = c'
      · subst hv
        have hcons : classOf ((k0, v0) :: rest) v0 = k0 :: classOf rest v0 := by
          simp [classOf, List.filter_cons]
        rw [hcons, List.count_cons_of_ne (fun hh => hne hh.symm)]
        exact ih hk.2 h
      · have hcons : classOf ((k0, v0) :: rest) c' = classOf rest c' := by
          simp [classOf, List.filter_cons, hv]
        rw [hcons]
        exact ih hk.2 h

theorem mem_needRefresh_mono (rel : RelMap) (d : String) :
    ∀ (l : List (String × Diff)) (acc : List String), d ∈ acc →
      d ∈ l.foldl (fun acc fd =>
        if fd.2 = Diff.MODIFIED then acc ++ Relationships.get_documents rel fd.1 else acc)
        acc := by
  intro l
  induction l with
  | nil => intro acc h; exact h
  | cons p rest ih =>
    intro acc h
    rw [List.foldl_cons]
    apply ih
    by_cases hp : p.2 = Diff.MODIFIED
    · rw [if_pos hp]; exact List.mem_append_left _ h
    · rw [if_neg hp]; exact h

theorem mem_needRefresh (tmpl : List (String × Diff)) (rel : RelMap) (t d : String)
    (ht : (t, Diff.MODIFIED) ∈ tmpl) (hd : d ∈ Relationships.get_documents rel t) :
    d ∈ needRefresh tmpl rel := by
  unfold needRefresh
  generalize hacc : ([] : List String) = acc
  clear hacc
  induction tmpl generalizing acc with
  | nil => simp at ht
  | cons p rest ih =>
    rw [List.foldl_cons]
    rcases List.mem_cons.mp ht with h | h
    · subst h
      rw [if_pos rfl]
      exact mem_needRefresh_mono rel d rest _ (List.mem_append_right _ hd)
    · exact ih h _

/-- C1: if the source diff classifies `d` as SAME, the templates diff
classifies `t` as MODIFIED, and the dependency graph associates `t` with
`d`, then the plan of `__render_pages` renders `d` exactly once (promoted
from unchanged, not duplicated) and does not schedule `d` for removal. -/
theorem render_plan_forced_once (src tmpl : List (String × Diff)) (rel : RelMap)
    (d t : String) (hk : (dictKeys src).Nodup)
    (hd : (d, Diff.SAME) ∈ src) (ht : (t, Diff.MODIFIED) ∈ tmpl)
    (hq : d ∈ Relationships.get_documents rel t) :
    (renderPlan src tmpl rel).1.count d = 1 ∧ d ∉ (renderPlan src tmpl rel).2 := by
  have hA : (classOf src Diff.ADDED).count d = 0 := by
    rw [count_classOf src d Diff.SAME Diff.ADDED hk hd]; simp
  have hM : (classOf src Diff.MODIFIED).count d = 0 := by
    rw [count_classOf src d Diff.SAME Diff.MODIFIED hk hd]; simp
  have hR : (classOf src Diff.DELETED).count d = 0 := by
    rw [count_classOf src d Diff.SAME Diff.DELETED hk hd]; simp
  have hS : (classOf src Diff.SAME).count d = 1 := by
    rw [count_classOf src d Diff.SAME Diff.SAME hk hd]; simp
  have hmemS : d ∈ classOf src Diff.SAME := by
    rw [← List.count_pos_iff]; omega
  have hneS : classOf src Diff.SAME ≠ [] := List.ne_nil_of_mem hmemS
  have hmemF : d ∈ (classOf src Diff.SAME).filter (fun f => f ∈ needRefresh tmpl rel) := by
    rw [List.mem_filter]
    exact ⟨hmemS, by simpa using mem_needRefresh tmpl rel t d ht hq⟩
  have hcountF :
      ((classOf src Diff.SAME).filter (fun f => f ∈ needRefresh tmpl rel)).count d = 1 := by
    have hsub : ((classOf src Diff.SAME).filter
        (fun f => f ∈ needRefresh tmpl rel)).Sublist (classOf src Diff.SAME) :=
      List.filter_sublist _
    have hle := hsub.count_le d
    rw [hS] at hle
    have hge := List.count_pos_iff.mpr hmemF
    omega
  have hMod : (renderModified src tmpl rel).count d = 1 := by
    unfold renderModified
    rw [if_pos hneS, List.count_append, hM, hcountF]
  have hModNe : renderModified src tmpl rel ≠ [] := by
    have hmemMod : d ∈ renderModified src tmpl rel := by
      rw [← List.count_pos_iff, hMod]; omega
    exact List.ne_nil_of_mem hmemMod
  unfold renderPlan
  rw [if_neg (fun hcontra => hModNe hcontra.2.1)]
  refine ⟨?_, ?_⟩
  · show (classOf src Diff.ADDED ++ renderModified src tmpl rel).count d = 1
    rw [List.count_append, hA, hMod]
  · show d ∉ classOf src Diff.DELETED
    intro hin
    have := List.count_pos_iff.mpr hin
    omega

/-- Witness for C1: `a.md` is unchanged, `layout.html` is modified,
the graph maps `layout.html` to `a.md`; the plan renders `a.md` once and
removes nothing. -/
theorem render_plan_forced_once_witness :
    (dictKeys [("a.md", Diff.SAME), ("b.md", Diff.MODIFIED)]).Nodup ∧
    ("a.md", Diff.SAME) ∈ [("a.md", Diff.SAME), ("b.md", Diff.MODIFIED)] ∧
    ("layout.html", Diff.MODIFIED) ∈ [("layout.html", Diff.MODIFIED)] ∧
    "a.md" ∈ Relationships.get_documents [("layout.html", ["a.md"])] "layout.html" ∧
    ((renderPlan [("a.md", Diff.SAME), ("b.md", Diff.MODIFIED)]
        [("layout.html", Diff.MODIFIED)] [("layout.html", ["a.md"])]).1.count "a.md" = 1 ∧
      "a.md" ∉ (renderPlan [("a.md", Diff.SAME), ("b.md", Diff.MODIFIED)]
        [("layout.html", Diff.MODIFIED)] [("layout.html", ["a.md"])]).2) :=
  ⟨by decide, by decide, by decide, by decide,
   render_plan_forced_once [("a.md", Diff.SAME), ("b.md", Diff.MODIFIED)]
     [("layout.html", Diff.MODIFIED)] [("layout.html", ["a.md"])] "a.md" "layout.html"
     (by decide) (by decide) (by decide) (by decide)⟩

/-!
## Snapshot text encoding (src/komoe/builder/snapshots.py, identical in
src/komoe/snapshot.py)

`Snapshot.dump` writes one line per entry, `f"{path}:{time}\n"`;
`Snapshot.load` splits the text on newlines, skips empty entries, splits
each entry at its last colon (`entry.rsplit(":", 1)`) and parses the
timestamp with `int(...)`.  Text is embedded as `List Char`; timestamps are
Python ints, embedded as `Int`.  `parseInt?` models `int()` on the strings
the encoder can emit — an optional minus sign followed by decimal digits —
returning `none` (a `ValueError`) otherwise.
-/

def digitChar : Nat → Char
  | 0 => '0' | 1 => '1' | 2 => '2' | 3 => '3' | 4 => '4'
  | 5 => '5' | 6 => '6' | 7 => '7' | 8 => '8' | _ => '9'

/-- Decimal digits of `n`, most significant first (`fuel ≥ n + 1` always
suffices: the argument shrinks by a factor of ten every step). -/
def natCharsAux : Nat → Nat → List Char
  | 0, _ => []
  | fuel+1, n => if n < 10 then [digitChar n] else natCharsAux fuel (n / 10) ++ [digitChar (n % 10)]

def natChars (n : Nat) : List Char := natCharsAux (n + 1) n

/-- The decimal representation `str(i)` of a Python int. -/
def intChars (i : Int) : List Char :=
  if i < 0 then '-' :: natChars i.natAbs else natChars i.toNat

def isDigitChar (c : Char) : Bool := decide (48 ≤ c.toNat ∧ c.toNat ≤ 57)

def digitVal (c : Char) : Nat := c.toNat - 48

def parseNat? (cs : List Char) : Option Nat :=
  if cs ≠ [] ∧ cs.all isDigitChar then
    some (cs.foldl (fun acc c => acc * 10 + digitVal c) 0)
  else none

def parseInt? (cs : List Char) : Option Int :=
  match cs with
  | '-' :: rest => (parseNat? rest).map (fun n => -(Int.ofNat n))
  | _ => (parseNat? cs).map (fun n => Int.ofNat n)

theorem digitChar_facts : ∀ m, m < 10 →
    isDigitChar (digitChar m) = true ∧ digitVal (digitChar m) = m := by decide

theorem natCharsAux_digits : ∀ (fuel n : Nat), n < fuel →
    ∀ c ∈ natCharsAux fuel n, isDigitChar c = true := by
  intro fuel
  induction fuel with
  | zero => intro n h; omega
  | succ fuel ih =>
    intro n h c hc
    rw [natCharsAux] at hc
    by_cases h10 : n < 10
    · rw [if_pos h10] at hc
      rcases List.mem_singleton.mp hc with rfl
      exact (digitChar_facts n h10).1
    · rw [if_neg h10] at hc
      rcases List.mem_append.mp hc with hc | hc
      · exact ih (n / 10) (by omega) c hc
      · rcases List.mem_singleton.mp hc with rfl
        exact (digitChar_facts (n % 10) (by omega)).1

theorem natCharsAux_ne_nil (fuel n : Nat) (h : 0 < fuel) : natCharsAux fuel n ≠ [] := by
  cases fuel with
  | zero => omega
  | succ fuel =>
    rw [natCharsAux]
    by_cases h10 : n < 10
    · simp [if_pos h10]
    · simp [if_neg h10]

theorem foldl_digits_natCharsAux : ∀ (fuel n : Nat), n < fuel →
    (natCharsAux fuel n).foldl (fun acc c => acc * 10 + digitVal c) 0 = n := by
  intro fuel
  induction fuel with
  | zero => intro n h; omega
  | succ fuel ih =>
    intro n h
    rw [natCharsAux]
    by_cases h10 : n < 10
    · rw [if_pos h10]
      simp [List.foldl, (digitChar_facts n h10).2]
    · rw [if_neg h10]
      rw [List.foldl_append]
      rw [ih (n / 10) (by omega)]
      simp only [List.foldl, (digitChar_facts (n % 10) (by omega)).2]
      omega

theorem parseNat?_natChars (n : Nat) : parseNat? (natChars n) = some n := by
  unfold parseNat? natChars
  rw [if_pos]
  · rw [foldl_digits_natCharsAux (n + 1) n (by omega)]
  · refine ⟨natCharsAux_ne_nil (n + 1) n (by omega), ?_⟩
    rw [List.all_eq_true]
    exact natCharsAux_digits (n + 1) n (by omega)

theorem natChars_head_digit (n : Nat) :
    ∀ c ∈ natChars n, isDigitChar c = true :=
  natCharsAux_digits (n + 1) n (by omega)

theorem digit_ne_colon {c : Char} (h : isDigitChar c = true) : c ≠ ':' := by
  intro he; subst he; exact absurd h (by decide)

theorem digit_ne_nl {c : Char} (h : isDigitChar c = true) : c ≠ '\n' := by
  intro he; subst he; exact absurd h (by decide)

theorem digit_ne_dash {c : Char} (h : isDigitChar c = true) : c ≠ '-' := by
  intro he; subst he; exact absurd h (by decide)

theorem intChars_no_colon (i : Int) : (':' : Char) ∉ intChars i := by
  intro hmem
  unfold intChars at hmem
  by_cases hneg : i < 0
  · rw [if_pos hneg] at hmem
    rcases List.mem_cons.mp hmem with h | h
    · exact absurd h.symm (by decide)
    · exact digit_ne_colon (natChars_head_digit _ _ h) rfl
  · rw [if_neg hneg] at hmem
    exact digit_ne_colon (natChars_head_digit _ _ hmem) rfl

theorem intChars_no_nl (i : Int) : ('\n' : Char) ∉ intChars i := by
  intro hmem
  unfold intChars at hmem
  by_cases hneg : i < 0
  · rw [if_pos hneg] at hmem
    rcases List.mem_cons.mp hmem with h | h
    · exact absurd h.symm (by decide)
    · exact digit_ne_nl (natChars_head_digit _ _ h) rfl
  · rw [if_neg hneg] at hmem
    exact digit_ne_nl (natChars_head_digit _ _ hmem) rfl

theorem parseInt?_dash (rest : List Char) :
    parseInt? ('-' :: rest) = (parseNat? rest).map (fun n => -(Int.ofNat n)) := rfl

theorem parseInt?_no_dash (cs : List Char) (h : ∀ rest, cs ≠ '-' :: rest) :
    parseInt? cs = (parseNat? cs).map (fun n => Int.ofNat n) := by
  unfold parseInt?
  split
  · rename_i rest
    exact absurd rfl (h rest)
  · rfl

theorem parseInt?_intChars (i : Int) : parseInt? (intChars i) = some i := by
  by_cases hneg : i < 0
  · have hi : intChars i = '-' :: natChars i.natAbs := by
      unfold intChars; rw [if_pos hneg]
    rw [hi, parseInt?_dash, parseNat?_natChars]
    simp only [Option.map_some']
    have hcast : Int.ofNat i.natAbs = -i := by
      show ((i.natAbs : Nat) : Int) = -i
      omega
    rw [hcast, neg_neg]
  · have hi : intChars i = natChars i.toNat := by
      unfold intChars; rw [if_neg hneg]
    rw [hi]
    have hnod : ∀ rest, natChars i.toNat ≠ '-' :: rest := by
      intro rest heq
      have hcd : isDigitChar '-' = true := by
        apply natChars_head_digit i.toNat
        rw [heq]
        exact List.mem_cons_self _ _
      exact absurd hcd (by decide)
    rw [parseInt?_no_dash _ hnod, parseNat?_natChars]
    simp only [Option.map_some']
    have hcast : Int.ofNat i.toNat = i := by
      show ((i.toNat : Nat) : Int) = i
      omega
    rw [hcast]

theorem dictSet_of_not_mem {β : Type} (m : List (String × β)) (k : String) (v : β) :
    k ∉ dictKeys m → dictSet m k v = m ++ [(k, v)] := by
  induction m with
  | nil => intro _; rfl
  | cons p rest ih =>
    obtain ⟨k0, v0⟩ := p
    intro h
    simp only [dictKeys, List.map_cons, List.mem_cons, not_or] at h
    have h0 : ¬ k0 = k := fun hh => h.1 hh.symm
    simp only [dictSet, if_neg h0, List.cons_append, List.cons.injEq, true_and]
    exact ih h.2

/-- A snapshot's `__files` dict: relative path → timestamp. -/
abbrev SnapFiles : Type := List (String × Int)

/-- One encoded snapshot entry, `f"{path}:{time}\n"`. -/
def snapLine (p : String × Int) : List Char :=
  p.1.data ++ ':' :: (intChars p.2 ++ ['\n'])

/-- `Snapshot.dump`: `text = ""`, then `text += f"{path}:{time}\n"` for each
entry in dict order. -/
def Snapshot.dump (files : SnapFiles) : List Char :=
  files.foldl (fun text p => text ++ snapLine p) []

/-- Python `text.split("\n")` (all segments, empty ones included). -/
def splitNl : List Char → List (List Char)
  | [] => [[]]
  | c :: rest =>
    if c = '\n' then [] :: splitNl rest
    else match splitNl rest with
      | [] => [[c]]
      | seg :: segs => (c :: seg) :: segs

/-- Python `entry.rsplit(":", 1)`: split at the last colon; `none` when the
entry has no colon (the unpacking then raises a `ValueError`). -/
def rsplitColon : List Char → Option (List Char × List Char)
  | [] => none
  | c :: rest =>
    match rsplitColon rest with
    | some (p, t) => some (c :: p, t)
    | none => if c = ':' then some ([], rest) else none

/-- The body of the `for entry in text.split("\n")` loop of `Snapshot.load`:
skip empty entries, split off the timestamp at the last colon, parse it, and
store `data[path] = time`; `none` models the `ValueError`s of `rsplit`
unpacking and of `int(...)`. -/
def snapLoadLine (data : SnapFiles) (entry : List Char) : Option SnapFiles :=
  if entry.length = 0 then some data
  else
    match rsplitColon entry with
    | none => none
    | some (p, tcs) =>
      match parseInt? tcs with
      | none => none
      | some t => some (dictSet data (String.mk p) t)

/-- `Snapshot.load`. -/
def Snapshot.load (text : List Char) : Option SnapFiles :=
  (splitNl text).foldlM snapLoadLine []

/-- Recursive form of the dump text, used to reason about `Snapshot.dump`. -/
def snapDumpRec : SnapFiles → List Char
  | [] => []
  | p :: rest => snapLine p ++ snapDumpRec rest

theorem dump_foldl_eq (files : SnapFiles) :
    ∀ acc, files.foldl (fun text p => text ++ snapLine p) acc = acc ++ snapDumpRec files := by
  induction files with
  | nil => intro acc; simp [snapDumpRec]
  | cons p rest ih =>
    intro acc
    rw [List.foldl_cons, ih (acc ++ snapLine p), snapDumpRec, List.append_assoc]

theorem dump_eq_rec (files : SnapFiles) : Snapshot.dump files = snapDumpRec files := by
  unfold Snapshot.dump
  rw [dump_foldl_eq files []]
  simp

theorem splitNl_append (a rest : List Char) (h : ('\n' : Char) ∉ a) :
    splitNl (a ++ '\n' :: rest) = a :: splitNl rest := by
  induction a with
  | nil =>
    simp only [List.nil_append]
    rw [splitNl, if_pos rfl]
  | cons c tl ih =>
    simp only [List.mem_cons, not_or] at h
    simp only [List.cons_append]
    rw [splitNl, if_neg (fun hh => h.1 hh.symm), ih h.2]

theorem rsplitColon_none (cs : List Char) (h : (':' : Char) ∉ cs) :
    rsplitColon cs = none := by
  induction cs with
  | nil => rfl
  | cons c rest ih =>
    simp only [List.mem_cons, not_or] at h
    rw [rsplitColon, ih h.2, if_neg (fun hh => h.1 hh.symm)]

theorem rsplitColon_last (p t : List Char) (h : (':' : Char) ∉ t) :
    rsplitColon (p ++ ':' :: t) = some (p, t) := by
  induction p with
  | nil =>
    simp only [List.nil_append]
    rw [rsplitColon, rsplitColon_none t h, if_pos rfl]
  | cons c tl ih =>
    simp only [List.cons_append]
    rw [rsplitColon, ih]

/-- Processing the dump of `files` starting from accumulator `acc` appends
exactly `files`, provided all keys are distinct and no path contains a
newline. -/
theorem load_snapDumpRec :
    ∀ (files acc : SnapFiles),
      (dictKeys (acc ++ files)).Nodup →
      (∀ p ∈ files, ('\n' : Char) ∉ (Prod.fst p).data) →
      (splitNl (snapDumpRec files)).foldlM snapLoadLine acc = some (acc ++ files) := by
  intro files
  induction files with
  | nil =>
    intro acc _ _
    simp [snapDumpRec, splitNl, snapLoadLine]
  | cons q rest ih =>
    intro acc hk hnl
    obtain ⟨path, time⟩ := q
    have hpnl : ('\n' : Char) ∉ path.data :=
      hnl (path, time) (List.mem_cons_self _ _)
    have hline : snapDumpRec ((path, time) :: rest)
        = (path.data ++ ':' :: intChars time) ++ '\n' :: snapDumpRec rest := by
      show snapLine (path, time) ++ snapDumpRec rest = _
      unfold snapLine
      simp [List.append_assoc]
    rw [hline, splitNl_append _ _ (by
      simp only [List.mem_append, List.mem_cons, not_or]
      refine ⟨hpnl, ?_, ?_⟩
      · decide
      · intro hmem
        exact intChars_no_nl time hmem)]
    rw [List.foldlM_cons]
    have hentry : snapLoadLine acc (path.data ++ ':' :: intChars time)
        = some (acc ++ [(path, time)]) := by
      unfold snapLoadLine
      rw [if_neg (by simp)]
      rw [rsplitColon_last _ _ (intChars_no_colon time)]
      show (match parseInt? (intChars time) with
        | none => none
        | some t => some (dictSet acc (String.mk path.data) t))
          = some (acc ++ [(path, time)])
      rw [parseInt?_intChars]
      show some (dictSet acc path time) = some (acc ++ [(path, time)])
      have hkacc : path ∉ dictKeys acc := by
        simp only [dictKeys, List.map_append, List.nodup_append] at hk
        intro hmem
        exact hk.2.2 hmem (by simp [dictKeys])
      rw [dictSet_of_not_mem acc path time hkacc]
    rw [hentry]
    show (splitNl (snapDumpRec rest)).foldlM snapLoadLine (acc ++ [(path, time)])
        = some (acc ++ (path, time) :: rest)
    rw [ih (acc ++ [(path, time)])
      (by rwa [List.append_assoc, List.singleton_append])
      (fun p hp => hnl p (List.mem_cons_of_mem _ hp))]
    rw [List.append_assoc, List.singleton_append]

/-- C9: snapshot serialization round-trips.  For every snapshot (a dict, so
paths are unique keys) whose paths contain no newline character,
`Snapshot.load(s.dump())` yields exactly the same path → timestamp entries —
paths containing colons included, because the timestamp is split off at the
last colon. -/
theorem snapshot_load_dump (files : SnapFiles)
    (hk : (dictKeys files).Nodup)
    (hnl : ∀ p ∈ files, ('\n' : Char) ∉ (Prod.fst p).data) :
    Snapshot.load (Snapshot.dump files) = some files := by
  unfold Snapshot.load
  rw [dump_eq_rec]
  have := load_snapDumpRec files [] (by simpa using hk) hnl
  simpa using this

/-- Witness for C9: a concrete snapshot whose first path contains a colon
and whose timestamps include a negative one. -/
theorem snapshot_load_dump_witness :
    (dictKeys [("a:b.md", (100 : Int)), ("notes/c.md", -3)]).Nodup ∧
    (∀ p ∈ [("a:b.md", (100 : Int)), ("notes/c.md", -3)],
        ('\n' : Char) ∉ (Prod.fst p).data) ∧
    Snapshot.load (Snapshot.dump [("a:b.md", (100 : Int)), ("notes/c.md", -3)])
      = some [("a:b.md", (100 : Int)), ("notes/c.md", -3)] :=
  ⟨by decide, by decide,
   snapshot_load_dump [("a:b.md", (100 : Int)), ("notes/c.md", -3)]
     (by decide) (by decide)⟩

/-!
## Missing templates and the render loop (src/komoe/builder/__init__.py)

`Builder.__find_template_file` splits `self.__md.template` with
`os.path.split`, requires the directory to exist under the templates root,
scans `directory.iterdir()` keeping the last file whose name starts with
`name + "."`, and otherwise logs and raises
`click.ClickException(f"failed to render {file}")`.  The `for file in
created/modified` loops of `__render_pages` call `__render_page` with no
try/except, so that exception propagates and ends the build.  The exception
is modelled with `Except String`, the message being the `ClickException`
text.
-/

/-- Python `entry.rsplit("/", 1)`-style split used by `os.path.split`. -/
def rsplitSlash : List Char → Option (List Char × List Char)
  | [] => none
  | c :: rest =>
    match rsplitSlash rest with
    | some (p, t) => some (c :: p, t)
    | none => if c = '/' then some ([], rest) else none

/-- `os.path.split(template)`: directory part and final component (the
directory is empty when there is no slash). -/
def osPathSplit (s : String) : String × String :=
  match rsplitSlash s.data with
  | some (d, n) => (String.mk d, String.mk n)
  | none => ("", s)

/-- The template directories: directory path (relative to the templates
root) → names of the plain files inside, in `iterdir()` order.  Only files
are listed, matching the `f.is_file()` test. -/
structure TemplatesFS where
  dirs : List (String × List String)

/-- Python `f.name.startswith(pre)`, on the character lists. -/
def startsWithChars : List Char → List Char → Bool
  | [], _ => true
  | _ :: _, [] => false
  | p :: ps, c :: cs => (p = c) && startsWithChars ps cs

def pyStartsWith (s pre : String) : Bool := startsWithChars pre.data s.data

/-- The `for f in directory.iterdir()` loop: `path` keeps the LAST file
whose name starts with `name + "."`. -/
def lastMatch (entries : List String) (pre : String) : Option String :=
  entries.foldl (fun acc f => if pyStartsWith f pre then some f else acc) none

/-- `Builder.__find_template_file(file)`: errors are the
`click.ClickException("failed to render <file>")` raised by the source. -/
def findTemplateFile (fs : TemplatesFS) (template : String) (file : String) :
    Except String String :=
  let dn := osPathSplit template
  match dictGet? fs.dirs dn.1 with
  | none => Except.error ("failed to render " ++ file)
  | some entries =>
    match lastMatch entries (dn.2 ++ ".") with
    | none => Except.error ("failed to render " ++ file)
    | some f => Except.ok f

/-- The render loop of `__render_pages` over one batch of files:
`decl f` is the template name the markdown renderer declared for `f`
(`self.__md.template`).  Returns the files whose render completed, and the
`ClickException` that ended the loop, if any: an exception from
`__render_page` is not caught, so no later file is processed. -/
def renderBatch (fs : TemplatesFS) (decl : String → String) :
    List String → List String × Option String
  | [] => ([], none)
  | f :: rest =>
    match findTemplateFile fs (decl f) f with
    | Except.error e => ([], some e)
    | Except.ok _ =>
      let r := renderBatch fs decl rest
      (f :: r.1, r.2)

/-- C2 fails as stated: in a batch of two documents where the first names a
template that cannot be found, the `ClickException` aborts the whole batch —
the second document is not rendered, although rendering it alone would
succeed. -/
theorem missing_template_aborts_batch_counterexample :
    renderBatch ⟨[("", ["base.html", "nav.html"])]⟩
        (fun f => if f = "a.md" then "missing" else "base") ["a.md", "b.md"]
      = ([], some "failed to render a.md") ∧
    renderBatch ⟨[("", ["base.html", "nav.html"])]⟩
        (fun f => if f = "a.md" then "missing" else "base") ["b.md"]
      = (["b.md"], none) := by
  constructor <;> rfl

/-- C2 amended: a document whose named template cannot be found raises
`ClickException("failed to render <file>")`, which is not caught by the
render loop: the documents before it are rendered, and it and every later
document of the batch are not. -/
theorem missing_template_aborts_batch (fs : TemplatesFS) (decl : String → String)
    (pre : List String) (d : String) (post : List String) (e : String)
    (hok : ∀ x ∈ pre, (findTemplateFile fs (decl x) x).isOk = true)
    (herr : findTemplateFile fs (decl d) d = Except.error e) :
    renderBatch fs decl (pre ++ d :: post) = (pre, some e) := by
  induction pre with
  | nil =>
    rw [List.nil_append, renderBatch, herr]
  | cons x rest ih =>
    have hx := hok x (List.mem_cons_self _ _)
    rw [List.cons_append, renderBatch]
    cases hfx : findTemplateFile fs (decl x) x with
    | error e' => rw [hfx] at hx; simp [Except.isOk, Except.toBool] at hx
    | ok v =>
      rw [ih (fun y hy => hok y (List.mem_cons_of_mem _ hy))]

/-- Witness for the amended C2: `c.md` renders, then `a.md`'s missing
template ends the batch before `b.md`. -/
theorem missing_template_aborts_batch_witness :
    (∀ x ∈ ["c.md"],
      (findTemplateFile ⟨[("", ["base.html"])]⟩
        ((fun f => if f = "a.md" then "missing" else "base") x) x).isOk = true) ∧
    findTemplateFile ⟨[("", ["base.html"])]⟩
        ((fun f => if f = "a.md" then "missing" else "base") "a.md") "a.md"
      = Except.error "failed to render a.md" ∧
    renderBatch ⟨[("", ["base.html"])]⟩
        (fun f => if f = "a.md" then "missing" else "base") ("c.md" :: "a.md" :: ["b.md"])
      = (["c.md"], some "failed to render a.md") :=
  ⟨by decide, by rfl,
   missing_template_aborts_batch ⟨[("", ["base.html"])]⟩
     (fun f => if f = "a.md" then "missing" else "base") ["c.md"] "a.md" ["b.md"]
     "failed to render a.md" (by decide) (by rfl)⟩

/-!
## SnapshotRegistry (src/komoe/builder/snapshots.py)

`SnapshotRegistry.__Entry` declares `__current: Optional[Snapshot]` and
`__old: Optional[Snapshot]` as class-level annotations only; `__init__`
assigns just `__scan_path`, `__cache_path` and `__is_internal`, so both
snapshot attributes start out *unset* — a class-level annotation does not
create the attribute, and reading an unset attribute raises
`AttributeError`.  A `Slot` distinguishes the unset state from an explicit
`None` (which the `old` property tests for, but which no code path ever
assigns) and from a loaded snapshot.
-/

inductive PyErr where
  | attributeError
  | valueError
  | keyError
  | clickException
deriving DecidableEq

inductive Slot where
  | unset
  | pynone
  | val (s : SnapFiles)
deriving DecidableEq

structure SnapEntry where
  scan_path : String
  cache_path : String
  current : Slot
  old : Slot
  is_internal : Bool
deriving DecidableEq

/-- `__Entry.__init__(scan_path, cache_path, is_internal)`: the two snapshot
attributes are left unset. -/
def SnapEntry.init (scan_path cache_path : String) (is_internal : Bool) : SnapEntry :=
  ⟨scan_path, cache_path, Slot.unset, Slot.unset, is_internal⟩

/-- The `old` property: reading `self.__old` raises `AttributeError` while
the attribute is unset; the `if self.__old is None: return Snapshot({})`
fallback is reachable only from an explicit `None`. -/
def SnapEntry.oldProp (e : SnapEntry) : Except PyErr SnapFiles :=
  match e.old with
  | Slot.unset => Except.error PyErr.attributeError
  | Slot.pynone => Except.ok []
  | Slot.val s => Except.ok s

/-- `__Entry.load`: assign `__old` only when the cache file exists.  The
file system is a map from paths to file contents (`none`: not a file). -/
def SnapEntry.load (fs : String → Option (List Char)) (e : SnapEntry) :
    Except PyErr SnapEntry :=
  match fs e.cache_path with
  | none => Except.ok e
  | some text =>
    match Snapshot.load text with
    | none => Except.error PyErr.valueError
    | some s => Except.ok { e with old := Slot.val s }

/-- The directories of a project, as far as the registry uses them
(src/komoe/builder/paths.py). -/
structure ProjectPathsM where
  base_dir : String
  source_dir : String
  static_dir : String
  templates_dir : String
  cache_dir : String

/-- `ProjectPaths.cached_snapshot(name)`: `cache_dir / (name + ".snap")`. -/
def ProjectPathsM.cached_snapshot (paths : ProjectPathsM) (name : String) : String :=
  paths.cache_dir ++ "/" ++ name ++ ".snap"

/-- `pathlib`'s `/` on already-relative plain paths. -/
def pathJoin (a b : String) : String := a ++ "/" ++ b

/-- `SnapshotRegistry.__init__`: the three internal entries, in insertion
order. -/
def SnapshotRegistry.init (paths : ProjectPathsM) : List (String × SnapEntry) :=
  [("source", SnapEntry.init paths.source_dir (paths.cached_snapshot "source") true),
   ("static", SnapEntry.init paths.static_dir (paths.cached_snapshot "static") true),
   ("templates", SnapEntry.init paths.templates_dir (paths.cached_snapshot "templates") true)]

/-- `SnapshotRegistry.register(name, path)`: an existing name (internal or
not) raises `click.ClickException("failed to register snapshot")` before
anything is stored; otherwise a fresh external entry is added. -/
def SnapshotRegistry.register (reg : List (String × SnapEntry)) (paths : ProjectPathsM)
    (name path : String) : Except PyErr (List (String × SnapEntry)) :=
  if name ∈ dictKeys reg then Except.error PyErr.clickException
  else Except.ok (dictSet reg name
    (SnapEntry.init (pathJoin paths.base_dir path) (paths.cached_snapshot name) false))

/-- `SnapshotRegistry.load_all`: `entry.load()` for every entry. -/
def SnapshotRegistry.loadAll (fs : String → Option (List Char))
    (reg : List (String × SnapEntry)) : Except PyErr (List (String × SnapEntry)) :=
  reg.mapM (fun p => (SnapEntry.load fs p.2).map (fun e => (p.1, e)))

/-- `SnapshotRegistry.old(name)`: `self.__snapshots[name].old`. -/
def SnapshotRegistry.old (reg : List (String × SnapEntry)) (name : String) :
    Except PyErr SnapFiles :=
  match dictGet? reg name with
  | none => Except.error PyErr.keyError
  | some e => e.oldProp

/-- C3 is the intent but the code slips: for every registry entry whose
cache file is absent, `load` leaves the entry unchanged — `__old` stays
unset — and reading `old` afterwards raises `AttributeError` instead of
returning the empty snapshot the property's own `None` branch clearly
intends. -/
theorem snap_entry_missing_cache_attribute_error (sp cp : String) (b : Bool)
    (fs : String → Option (List Char)) (h : fs cp = none) :
    SnapEntry.load fs (SnapEntry.init sp cp b) = Except.ok (SnapEntry.init sp cp b) ∧
    SnapEntry.oldProp (SnapEntry.init sp cp b) = Except.error PyErr.attributeError := by
  constructor
  · show (match fs cp with
      | none => Except.ok (SnapEntry.init sp cp b)
      | some text =>
        match Snapshot.load text with
        | none => Except.error PyErr.valueError
        | some s => Except.ok { SnapEntry.init sp cp b with old := Slot.val s })
      = Except.ok (SnapEntry.init sp cp b)
    rw [h]
  · rfl

/-- Witness for C3: a freshly initialised registry, an empty cache
directory; `load_all` succeeds without assigning anything and `old("source")`
then raises `AttributeError`. -/
theorem snap_entry_missing_cache_attribute_error_witness :
    ((fun _ => none : String → Option (List Char)) "cache/source.snap" = none ∧
      SnapEntry.load (fun _ => none) (SnapEntry.init "src" "cache/source.snap" true)
        = Except.ok (SnapEntry.init "src" "cache/source.snap" true) ∧
      SnapEntry.oldProp (SnapEntry.init "src" "cache/source.snap" true)
        = Except.error PyErr.attributeError) ∧
    SnapshotRegistry.loadAll (fun _ => none)
        (SnapshotRegistry.init ⟨"b", "b/src", "b/static", "b/tpl", "b/.cache"⟩)
      = Except.ok (SnapshotRegistry.init ⟨"b", "b/src", "b/static", "b/tpl", "b/.cache"⟩) ∧
    SnapshotRegistry.old
        (SnapshotRegistry.init ⟨"b", "b/src", "b/static", "b/tpl", "b/.cache"⟩) "source"
      = Except.error PyErr.attributeError :=
  ⟨by
    have := snap_entry_missing_cache_attribute_error "src" "cache/source.snap" true
      (fun _ => none) rfl
    exact ⟨rfl, this.1, this.2⟩,
   by rfl, by rfl⟩

/-- C7 fails as stated: `"assets"` is not among the reserved names — the
registry reserves `"source"`, `"static"` and `"templates"` — so registering
a root under `"assets"` on a fresh registry succeeds and extends the
registry. -/
theorem register_assets_counterexample :
    (SnapshotRegistry.register
        (SnapshotRegistry.init ⟨"b", "b/src", "b/static", "b/tpl", "b/.cache"⟩)
        ⟨"b", "b/src", "b/static", "b/tpl", "b/.cache"⟩ "assets" "extra").map dictKeys
      = Except.ok ["source", "static", "templates", "assets"] := by
  rfl

/-- C7 amended: the reserved names are `"source"`, `"static"` and
`"templates"` (the keys of a fresh registry); registering under any name
already present — reserved or previously registered — raises
`ClickException` before the registry is touched, so the registry is
unchanged. -/
theorem register_existing_name_error (reg : List (String × SnapEntry))
    (paths : ProjectPathsM) (name path : String) (h : name ∈ dictKeys reg) :
    SnapshotRegistry.register reg paths name path = Except.error PyErr.clickException ∧
    dictKeys (SnapshotRegistry.init paths) = ["source", "static", "templates"] := by
  constructor
  · unfold SnapshotRegistry.register
    rw [if_pos h]
  · rfl

/-- Witness for the amended C7: registering the reserved `"static"` (and,
by the same theorem, any already-present name) on a fresh registry fails. -/
theorem register_existing_name_error_witness :
    "static" ∈ dictKeys
      (SnapshotRegistry.init ⟨"b", "b/src", "b/static", "b/tpl", "b/.cache"⟩) ∧
    (SnapshotRegistry.register
        (SnapshotRegistry.init ⟨"b", "b/src", "b/static", "b/tpl", "b/.cache"⟩)
        ⟨"b", "b/src", "b/static", "b/tpl", "b/.cache"⟩ "static" "x"
      = Except.error PyErr.clickException ∧
     dictKeys (SnapshotRegistry.init ⟨"b", "b/src", "b/static", "b/tpl", "b/.cache"⟩)
      = ["source", "static", "templates"]) :=
  ⟨by decide,
   register_existing_name_error
     (SnapshotRegistry.init ⟨"b", "b/src", "b/static", "b/tpl", "b/.cache"⟩)
     ⟨"b", "b/src", "b/static", "b/tpl", "b/.cache"⟩ "static" "x" (by decide)⟩

/-!
## DocumentTree (src/komoe/src/komoe/build/doctree.py)

Nodes carry a title (possibly `None`), a document flag and a dict of
children.  Paths are embedded as their `pathlib` parts (`Path('.')` ↔ `[]`);
`Path.stem` strips the suffix of the last part when its final dot is neither
the first nor the last character of the name, and `Path.parent.parts` drops
the last part.  `str.title()` is modelled for ASCII: the first letter of
every alphabetic run is uppercased, the rest lowercased.

`remove_document` recurses on `Path(*parent)`; every recursive call follows
the removal of one childless node, so the recursion depth is bounded by the
path length plus one re-examination of the root path — the fuel
`path.length + 2` of the wrapper below covers every run on a dict-backed
tree, and the fuel-indexed function makes the definition structurally
recursive and executable.
-/

/-- Index of the last `'.'`, as `name.rfind('.')` (none when absent). -/
def lastDotIdx : List Char → Option Nat
  | [] => none
  | c :: rest =>
    match lastDotIdx rest with
    | some i => some (i + 1)
    | none => if c = '.' then some 0 else none

/-- `PurePath.stem` on one name: drop the last suffix when the final dot is
neither the first nor the last character. -/
def pyStemChars (cs : List Char) : List Char :=
  match lastDotIdx cs with
  | some i => if 0 < i ∧ i < cs.length - 1 then cs.take i else cs
  | none => cs

def pyStem (s : String) : String := String.mk (pyStemChars s.data)

/-- `str.title()` (ASCII): uppercase a letter after a non-letter, lowercase
a letter after a letter. -/
def pyTitleChars : List Char → Bool → List Char
  | [], _ => []
  | c :: rest, prevAlpha =>
    (if c.isAlpha then (if prevAlpha then c.toLower else c.toUpper) else c)
      :: pyTitleChars rest c.isAlpha

def pyTitle (s : String) : String := String.mk (pyTitleChars s.data false)

/-- `path.parent.parts` for a relative path given by its parts. -/
def parentParts (path : List String) : List String := path.dropLast

/-- `path.stem`: the stem of the last part (`''` for `Path('.')`). -/
def pathStem (path : List String) : String :=
  match path.getLast? with
  | none => ""
  | some s => pyStem s

inductive Node where
  | mk (title : Option String) (is_document : Bool) (children : List (String × Node))

def Node.title : Node → Option String
  | .mk t _ _ => t

def Node.is_document : Node → Bool
  | .mk _ d _ => d

def Node.children : Node → List (String × Node)
  | .mk _ _ c => c

/-- `Node.get_child`: `self.__children.get(docid)`. -/
def Node.getChild (n : Node) (docid : String) : Option Node :=
  dictGet? n.children docid

/-- `Node._add_child`: `self.__children[docid] = node` (also how found
children are written back after in-place mutation). -/
def Node.addChild (n : Node) (docid : String) (c : Node) : Node :=
  Node.mk n.title n.is_document (dictSet n.children docid c)

/-- `Node._remove_child`: `del self.__children[docid]`. -/
def Node.removeChild (n : Node) (docid : String) : Node :=
  Node.mk n.title n.is_document (dictErase n.children docid)

/-- Python truthiness of the title argument (`None` and `""` are falsy). -/
def pyTruthy : Option String → Bool
  | none => false
  | some s => s ≠ ""

/-- `Node._found(title)`: `if title: self.__title = title`, then mark as a
document. -/
def Node.found (n : Node) (title : Option String) : Node :=
  Node.mk (if pyTruthy title then title else n.title) true n.children

/-- `Node._lost(title)`: set the title unconditionally, clear the document
flag. -/
def Node.lost (n : Node) (title : Option String) : Node :=
  Node.mk title false n.children

/-- `DocumentTree.__get_node`. -/
def getNode : Node → List String → Option Node
  | base, [] => some base
  | base, seg :: rest =>
    match base.getChild seg with
    | none => none
    | some c => getNode c rest

/-- Apply an in-place mutation to the node addressed by `path` (no-op when
the path does not resolve): the functional rendering of Python's mutation of
a node found inside the tree. -/
def updateAt : Node → List String → (Node → Node) → Node
  | n, [], f => f n
  | n, seg :: rest, f =>
    match n.getChild seg with
    | none => n
    | some c => n.addChild seg (updateAt c rest f)

/-- `DocumentTree.__ensure_path_exists`: create title-cased placeholder
nodes for the missing ancestors. -/
def ensurePath : Node → List String → Node
  | n, [] => n
  | n, seg :: rest =>
    match n.getChild seg with
    | none => n.addChild seg (ensurePath (Node.mk (some (pyTitle seg)) false []) rest)
    | some c => n.addChild seg (ensurePath c rest)

/-- The shared tail of `add_document` once `(parent, stem)` are known. -/
def addDocAt (root : Node) (parent : List String) (stem : String)
    (title : Option String) : Node :=
  let root1 := ensurePath root parent
  updateAt root1 parent (fun pnode =>
    match pnode.getChild stem with
    | none => pnode.addChild stem (Node.mk title true [])
    | some ex => if ex.is_document then pnode else pnode.addChild stem (Node.found ex title))

/-- `DocumentTree.add_document(path, title)`. -/
def DocumentTree.add_document (root : Node) (path : List String)
    (title : Option String) : Node :=
  if pathStem path = "index" then
    if parentParts path = [] then
      if root.is_document then root else Node.found root title
    else
      addDocAt root (parentParts path).dropLast (((parentParts path).getLast?).getD "") title
  else
    addDocAt root (parentParts path) (pathStem path) title

/-- The shared tail of `edit_document` once `parts` is known. -/
def editDocAt (root : Node) (parts path : List String) (title : Option String) : Node :=
  match getNode root parts with
  | none => DocumentTree.add_document root path title
  | some _ => updateAt root parts (fun n => Node.found n title)

/-- `DocumentTree.edit_document(path, title)`. -/
def DocumentTree.edit_document (root : Node) (path : List String)
    (title : Option String) : Node :=
  if pathStem path = "index" then
    if parentParts path = [] then Node.found root title
    else editDocAt root (parentParts path) path title
  else editDocAt root (parentParts path ++ [pathStem path]) path title

/-- `DocumentTree.remove_document(path)`, fuel-indexed (see the section
comment: the fuel of the wrapper below never runs out on a dict-backed
tree). -/
def removeDocFuel : Nat → Node → List String → Node
  | 0, root, _ => root
  | fuel+1, root, path =>
    let body := fun (parent : List String) (stem : String) =>
      match getNode root parent with
      | none => root
      | some pnode =>
        match pnode.getChild stem with
        | none => root
        | some target =>
          if target.children.isEmpty then
            let pnode' := pnode.removeChild stem
            let root' := updateAt root parent (fun n => n.removeChild stem)
            if ¬ pnode'.is_document = true ∧ pnode'.children.isEmpty then
              removeDocFuel fuel root' parent
            else root'
          else
            updateAt root parent (fun n => n.addChild stem (Node.lost target (some (pyTitle stem))))
    if pathStem path = "index" then
      if parentParts path = [] then Node.lost root (some "Home")
      else body (parentParts path).dropLast (((parentParts path).getLast?).getD "")
    else body (parentParts path) (pathStem path)

def DocumentTree.remove_document (root : Node) (path : List String) : Node :=
  removeDocFuel (path.length + 2) root path

/-- Well-formedness of a tree: children keys are unique at every node (they
are Python dicts). -/
inductive NodeWF : Node → Prop where
  | mk {t : Option String} {d : Bool} {cs : List (String × Node)} :
      (dictKeys cs).Nodup → (∀ p ∈ cs, NodeWF p.2) → NodeWF (Node.mk t d cs)

theorem parentParts_concat (xs : List String) (x : String) :
    parentParts (xs ++ [x]) = xs := by
  unfold parentParts
  exact List.dropLast_concat ..

theorem pathStem_concat (xs : List String) (x : String) :
    pathStem (xs ++ [x]) = pyStem x := by
  unfold pathStem
  rw [List.getLast?_concat]

theorem dictSet_get_self {β : Type} (m : List (String × β)) (k : String) (v : β) :
    dictGet? m k = some v → dictSet m k v = m := by
  induction m with
  | nil => intro h; simp [dictGet?] at h
  | cons p rest ih =>
    obtain ⟨k0, v0⟩ := p
    intro h
    by_cases h0 : k0 = k
    · subst h0
      rw [dictGet?, if_pos rfl] at h
      obtain rfl : v0 = v := Option.some.inj h
      rw [dictSet, if_pos rfl]
    · rw [dictGet?, if_neg h0] at h
      rw [dictSet, if_neg h0, ih h]

theorem addChild_get_self (n : Node) (s : String) (c : Node)
    (h : n.getChild s = some c) : n.addChild s c = n := by
  obtain ⟨t, d, cs⟩ := n
  have h' : dictGet? cs s = some c := h
  show Node.mk t d (dictSet cs s c) = Node.mk t d cs
  rw [dictSet_get_self cs s c h']

theorem getNode_concat (p : List String) (x : String) :
    ∀ r : Node, getNode r (p ++ [x]) = (getNode r p).bind (fun n => n.getChild x) := by
  induction p with
  | nil =>
    intro r
    rw [List.nil_append]
    cases hc : r.getChild x with
    | none => simp [getNode, hc]
    | some c => simp [getNode, hc]
  | cons seg rest ih =>
    intro r
    rw [List.cons_append]
    cases hc : r.getChild seg with
    | none => simp [getNode, hc]
    | some c => simp [getNode, hc, ih c]

theorem getNode_updateAt_self (p : List String) (f : Node → Node) :
    ∀ (r n : Node), getNode r p = some n → getNode (updateAt r p f) p = some (f n) := by
  induction p with
  | nil =>
    intro r n h
    obtain rfl : r = n := Option.some.inj h
    rfl
  | cons seg rest ih =>
    intro r n h
    cases hc : r.getChild seg with
    | none => simp [getNode, hc] at h
    | some c =>
      simp only [getNode, hc] at h
      have hgc : (r.addChild seg (updateAt c rest f)).getChild seg
          = some (updateAt c rest f) := by
        obtain ⟨t, d, cs⟩ := r
        exact dictGet?_dictSet_self ..
      simp only [updateAt, hc, getNode, hgc]
      exact ih c n h

theorem ensurePath_of_exists (p : List String) :
    ∀ (r n : Node), getNode r p = some n → ensurePath r p = r := by
  induction p with
  | nil => intro r n _; rfl
  | cons seg rest ih =>
    intro r n h
    cases hc : r.getChild seg with
    | none => simp [getNode, hc] at h
    | some c =>
      simp only [getNode, hc] at h
      simp only [ensurePath, hc]
      rw [ih c n h]
      exact addChild_get_self r seg c hc

theorem updateAt_id_of (p : List String) (f : Node → Node) :
    ∀ (r n : Node), getNode r p = some n → f n = n → updateAt r p f = r := by
  induction p with
  | nil =>
    intro r n h hf
    obtain rfl : r = n := Option.some.inj h
    show f r = r
    exact hf
  | cons seg rest ih =>
    intro r n h hf
    cases hc : r.getChild seg with
    | none => simp [getNode, hc] at h
    | some c =>
      simp only [getNode, hc] at h
      simp only [updateAt, hc]
      rw [ih c n h hf]
      exact addChild_get_self r seg c hc

theorem getNode_some_of_concat {r : Node} {p : List String} {x : String} {n : Node}
    (h : getNode r (p ++ [x]) = some n) :
    ∃ a, getNode r p = some a ∧ a.getChild x = some n := by
  rw [getNode_concat] at h
  cases ha : getNode r p with
  | none => rw [ha] at h; exact absurd h (by simp)
  | some a =>
    rw [ha] at h
    exact ⟨a, rfl, h⟩

/-- C8 amended: when the addressed node is already a document,
`add_document` only warns — the tree, title included, is unchanged
(`_found` is called only on non-documents; title updates for existing
documents happen through `edit_document`). -/
theorem add_document_existing_doc_unchanged (root : Node) (parent : List String)
    (fname stem : String) (title : Option String) (ex : Node)
    (hstem : pyStem fname = stem) (hidx : stem ≠ "index")
    (hex : getNode root (parent ++ [stem]) = some ex)
    (hdoc : ex.is_document = true) :
    DocumentTree.add_document root (parent ++ [fname]) title = root := by
  obtain ⟨a, ha, hax⟩ := getNode_some_of_concat hex
  unfold DocumentTree.add_document
  rw [pathStem_concat, hstem, if_neg hidx, parentParts_concat]
  show updateAt (ensurePath root parent) parent _ = root
  rw [ensurePath_of_exists parent root a ha]
  apply updateAt_id_of parent _ root a ha
  simp [hax, hdoc]

/-- C8 fails as stated: adding `a.html` with title `"B"` over the existing
document node `a` (titled `"A"`) leaves the tree — and the title —
unchanged, while the claim demands the title become `"B"`. -/
theorem add_document_existing_doc_counterexample :
    (getNode (Node.mk (some "Home") false [("a", Node.mk (some "A") true [])])
        ["a"]).map Node.is_document = some true ∧
    DocumentTree.add_document
        (Node.mk (some "Home") false [("a", Node.mk (some "A") true [])])
        ["a.html"] (some "B")
      = Node.mk (some "Home") false [("a", Node.mk (some "A") true [])] ∧
    (getNode (DocumentTree.add_document
        (Node.mk (some "Home") false [("a", Node.mk (some "A") true [])])
        ["a.html"] (some "B")) ["a"]).map Node.title = some (some "A") ∧
    (some "A" : Option String) ≠ some "B" :=
  ⟨rfl, rfl, rfl, by decide⟩

/-- Witness for the amended C8. -/
theorem add_document_existing_doc_unchanged_witness :
    pyStem "a.html" = "a" ∧ ("a" : String) ≠ "index" ∧
    getNode (Node.mk (some "Home") false [("a", Node.mk (some "A") true [])])
        ([] ++ ["a"]) = some (Node.mk (some "A") true []) ∧
    (Node.mk (some "A") true []).is_document = true ∧
    DocumentTree.add_document
        (Node.mk (some "Home") false [("a", Node.mk (some "A") true [])])
        ([] ++ ["a.html"]) (some "B")
      = Node.mk (some "Home") false [("a", Node.mk (some "A") true [])] :=
  ⟨by decide, by decide, rfl, rfl,
   add_document_existing_doc_unchanged
     (Node.mk (some "Home") false [("a", Node.mk (some "A") true [])])
     [] "a.html" "a" (some "B") (Node.mk (some "A") true [])
     (by decide) (by decide) rfl rfl⟩

/-- C10: promoting an existing placeholder through `add_document` or
`edit_document` marks it as a document; an empty or `None` title leaves the
previous (title-cased segment) title in place, a non-empty title replaces
it — exactly the truthiness test of `Node._found`. -/
theorem promote_placeholder_title (root : Node) (parent : List String)
    (fname stem : String) (title : Option String) (ex : Node)
    (hstem : pyStem fname = stem) (hidx : stem ≠ "index")
    (hex : getNode root (parent ++ [stem]) = some ex)
    (hph : ex.is_document = false) :
    getNode (DocumentTree.add_document root (parent ++ [fname]) title) (parent ++ [stem])
        = some (Node.found ex title) ∧
    getNode (DocumentTree.edit_document root (parent ++ [fname]) title) (parent ++ [stem])
        = some (Node.found ex title) ∧
    (Node.found ex title).is_document = true ∧
    (Node.found ex title).title = (if pyTruthy title then title else ex.title) := by
  obtain ⟨a, ha, hax⟩ := getNode_some_of_concat hex
  refine ⟨?_, ?_, ?_, ?_⟩
  · unfold DocumentTree.add_document
    rw [pathStem_concat, hstem, if_neg hidx, parentParts_concat]
    show getNode (updateAt (ensurePath root parent) parent _) (parent ++ [stem])
        = some (Node.found ex title)
    rw [ensurePath_of_exists parent root a ha]
    rw [getNode_concat]
    rw [getNode_updateAt_self parent _ root a ha]
    rw [Option.some_bind]
    simp only [hax]
    rw [hph]
    rw [if_neg (by simp)]
    obtain ⟨t, d, cs⟩ := a
    exact dictGet?_dictSet_self cs stem (Node.found ex title)
  · unfold DocumentTree.edit_document
    rw [pathStem_concat, hstem, if_neg hidx, parentParts_concat]
    unfold editDocAt
    rw [hex]
    exact getNode_updateAt_self (parent ++ [stem]) _ root ex hex
  · rfl
  · rfl

/-- Witness for C10: promoting the placeholder `blog` with an empty title
keeps its title-cased name `"Blog"`. -/
theorem promote_placeholder_title_witness :
    pyStem "blog.html" = "blog" ∧ ("blog" : String) ≠ "index" ∧
    getNode (Node.mk (some "Home") false [("blog", Node.mk (some "Blog") false [])])
        ([] ++ ["blog"]) = some (Node.mk (some "Blog") false []) ∧
    (Node.mk (some "Blog") false []).is_document = false ∧
    (getNode (DocumentTree.add_document
          (Node.mk (some "Home") false [("blog", Node.mk (some "Blog") false [])])
          ([] ++ ["blog.html"]) (some ""))
        ([] ++ ["blog"])
      = some (Node.found (Node.mk (some "Blog") false []) (some "")) ∧
     getNode (DocumentTree.edit_document
          (Node.mk (some "Home") false [("blog", Node.mk (some "Blog") false [])])
          ([] ++ ["blog.html"]) (some ""))
        ([] ++ ["blog"])
      = some (Node.found (Node.mk (some "Blog") false []) (some "")) ∧
     (Node.found (Node.mk (some "Blog") false []) (some "")).is_document = true ∧
     (Node.found (Node.mk (some "Blog") false []) (some "")).title
      = (if pyTruthy (some "") then some "" else some "Blog")) :=
  ⟨by decide, by decide, rfl, rfl,
   promote_placeholder_title
     (Node.mk (some "Home") false [("blog", Node.mk (some "Blog") false [])])
     [] "blog.html" "blog" (some "") (Node.mk (some "Blog") false [])
     (by decide) (by decide) rfl rfl⟩

theorem nodeWF_children_nodup {n : Node} (h : NodeWF n) : (dictKeys n.children).Nodup := by
  cases h
  assumption

theorem nodeWF_getChild {n c : Node} {s : String} (h : NodeWF n)
    (hc : n.getChild s = some c) : NodeWF c := by
  obtain ⟨t, d, cs⟩ := n
  cases h with
  | mk hk hall => exact hall (s, c) (dictGet?_some_mem hc)

theorem nodeWF_getNode (p : List String) :
    ∀ {r n : Node}, NodeWF r → getNode r p = some n → NodeWF n := by
  induction p with
  | nil =>
    intro r n hwf h
    obtain rfl : r = n := Option.some.inj h
    exact hwf
  | cons seg rest ih =>
    intro r n hwf h
    cases hc : r.getChild seg with
    | none => simp [getNode, hc] at h
    | some c =>
      simp only [getNode, hc] at h
      exact ih (nodeWF_getChild hwf hc) h

theorem mem_dictSet {β : Type} (m : List (String × β)) (k : String) (v : β) :
    ∀ q ∈ dictSet m k v, q ∈ m ∨ q = (k, v) := by
  induction m with
  | nil => intro q hq; simp [dictSet] at hq; exact Or.inr hq
  | cons p rest ih =>
    obtain ⟨k0, v0⟩ := p
    intro q hq
    by_cases h0 : k0 = k
    · subst h0
      rw [dictSet, if_pos rfl] at hq
      rcases List.mem_cons.mp hq with h | h
      · exact Or.inr h
      · exact Or.inl (List.mem_cons_of_mem _ h)
    · rw [dictSet, if_neg h0] at hq
      rcases List.mem_cons.mp hq with h | h
      · exact Or.inl (h ▸ List.mem_cons_self _ _)
      · rcases ih q h with h | h
        · exact Or.inl (List.mem_cons_of_mem _ h)
        · exact Or.inr h

theorem mem_dictErase {β : Type} (m : List (String × β)) (k : String) :
    ∀ q ∈ dictErase m k, q ∈ m := by
  induction m with
  | nil => intro q hq; simp [dictErase] at hq
  | cons p rest ih =>
    obtain ⟨k0, v0⟩ := p
    intro q hq
    by_cases h0 : k0 = k
    · subst h0
      rw [dictErase, if_pos rfl] at hq
      exact List.mem_cons_of_mem _ hq
    · rw [dictErase, if_neg h0] at hq
      rcases List.mem_cons.mp hq with h | h
      · exact h ▸ List.mem_cons_self _ _
      · exact List.mem_cons_of_mem _ (ih q h)

theorem dictKeys_dictErase_sublist {β : Type} (m : List (String × β)) (k : String) :
    (dictKeys (dictErase m k)).Sublist (dictKeys m) := by
  induction m with
  | nil => simp [dictErase]
  | cons p rest ih =>
    obtain ⟨k0, v0⟩ := p
    by_cases h0 : k0 = k
    · subst h0
      rw [dictErase, if_pos rfl]
      exact List.sublist_cons_self _ _
    · rw [dictErase, if_neg h0]
      show (dictKeys ((k0, v0) :: dictErase rest k)).Sublist (dictKeys ((k0, v0) :: rest))
      simp only [dictKeys, List.map_cons]
      exact List.Sublist.cons₂ _ ih

theorem nodeWF_addChild {n c : Node} {s : String} (hn : NodeWF n) (hc : NodeWF c) :
    NodeWF (n.addChild s c) := by
  obtain ⟨t, d, cs⟩ := n
  cases hn with
  | mk hk hall =>
    refine NodeWF.mk ?_ ?_
    · show (dictKeys (dictSet cs s c)).Nodup
      by_cases hmem : s ∈ dictKeys cs
      · rwa [dictKeys_dictSet_of_mem cs s c hmem]
      · rw [dictKeys_dictSet_of_not_mem cs s c hmem]
        simp [List.nodup_append, hk, hmem]
    · show ∀ q ∈ dictSet cs s c, NodeWF q.2
      intro q hq
      rcases mem_dictSet cs s c q hq with h | h
      · exact hall q h
      · rw [h]
        exact hc

theorem nodeWF_removeChild {n : Node} {s : String} (hn : NodeWF n) :
    NodeWF (n.removeChild s) := by
  obtain ⟨t, d, cs⟩ := n
  cases hn with
  | mk hk hall =>
    refine NodeWF.mk ?_ ?_
    · show (dictKeys (dictErase cs s)).Nodup
      exact hk.sublist (dictKeys_dictErase_sublist cs s)
    · show ∀ q ∈ dictErase cs s, NodeWF q.2
      intro q hq
      exact hall q (mem_dictErase cs s q hq)

theorem nodeWF_lost {n : Node} {x : Option String} (hn : NodeWF n) :
    NodeWF (n.lost x) := by
  obtain ⟨t, d, cs⟩ := n
  cases hn with
  | mk hk hall => exact NodeWF.mk hk hall

theorem nodeWF_updateAt (q : List String) (f : Node → Node)
    (hf : ∀ m, NodeWF m → NodeWF (f m)) :
    ∀ r : Node, NodeWF r → NodeWF (updateAt r q f) := by
  induction q with
  | nil => intro r hr; exact hf r hr
  | cons seg rest ih =>
    intro r hr
    cases hc : r.getChild seg with
    | none => simp only [updateAt, hc]; exact hr
    | some c =>
      simp only [updateAt, hc]
      exact nodeWF_addChild hr (ih c (nodeWF_getChild hr hc))

/-- `a` is a pathwise restriction of `b`: every path resolvable in `a` is
resolvable in `b`.  `remove_document` only removes or demotes nodes, so its
result is always a restriction of its input. -/
def NodeSub (a b : Node) : Prop :=
  ∀ p : List String, (getNode a p).isSome = true → (getNode b p).isSome = true

theorem sub_refl (a : Node) : NodeSub a a := fun _ h => h

theorem sub_trans {a b c : Node} (h1 : NodeSub a b) (h2 : NodeSub b c) : NodeSub a c :=
  fun p h => h2 p (h1 p h)

theorem sub_addChild {b c c0 : Node} {s : String}
    (h0 : b.getChild s = some c0) (hsub : NodeSub c c0) : NodeSub (b.addChild s c) b := by
  intro p hp
  cases p with
  | nil => rfl
  | cons k rest =>
    by_cases hk : k = s
    · subst hk
      have hgc : (b.addChild k c).getChild k = some c := by
        obtain ⟨t, d, cs⟩ := b
        exact dictGet?_dictSet_self ..
      simp only [getNode, hgc] at hp
      simp only [getNode, h0]
      exact hsub rest hp
    · have hgc : (b.addChild s c).getChild k = b.getChild k := by
        obtain ⟨t, d, cs⟩ := b
        exact dictGet?_dictSet_ne cs s k c hk
      simp only [getNode, hgc] at hp
      simp only [getNode]
      exact hp

theorem sub_removeChild {b : Node} {s : String} (hwf : NodeWF b) :
    NodeSub (b.removeChild s) b := by
  intro p hp
  cases p with
  | nil => rfl
  | cons k rest =>
    by_cases hk : k = s
    · subst hk
      have hgc : (b.removeChild k).getChild k = none := by
        obtain ⟨t, d, cs⟩ := b
        exact dictGet?_dictErase_self cs k (nodeWF_children_nodup hwf)
      simp [getNode, hgc] at hp
    · have hgc : (b.removeChild s).getChild k = b.getChild k := by
        obtain ⟨t, d, cs⟩ := b
        exact dictGet?_dictErase_ne cs s k hk
      simp only [getNode, hgc] at hp
      simp only [getNode]
      exact hp

theorem getNode_lost (c0 : Node) (x : Option String) (k : String) (rest : List String) :
    getNode (c0.lost x) (k :: rest) = getNode c0 (k :: rest) := by
  obtain ⟨t, d, cs⟩ := c0
  rfl

theorem sub_lost (c0 : Node) (x : Option String) : NodeSub (c0.lost x) c0 := by
  intro p hp
  cases p with
  | nil => rfl
  | cons k rest =>
    rwa [getNode_lost] at hp

theorem sub_updateAt (f : Node → Node) :
    ∀ (q : List String) (r n : Node), getNode r q = some n → NodeSub (f n) n →
      NodeSub (updateAt r q f) r := by
  intro q
  induction q with
  | nil =>
    intro r n h hsub
    obtain rfl : r = n := Option.some.inj h
    exact hsub
  | cons seg rest ih =>
    intro r n h hsub
    cases hc : r.getChild seg with
    | none => simp only [updateAt, hc]; exact sub_refl r
    | some c =>
      simp only [getNode, hc] at h
      simp only [updateAt, hc]
      exact sub_addChild hc (ih c n h hsub)

/-- The shared tail of `remove_document` once `(parent, stem)` are known
(the `body` of `removeDocFuel`, with the fuel of the recursive call made
explicit). -/
def removeStep (fuel : Nat) (root : Node) (parent : List String) (stem : String) : Node :=
  match getNode root parent with
  | none => root
  | some pnode =>
    match pnode.getChild stem with
    | none => root
    | some target =>
      if target.children.isEmpty then
        let pnode' := pnode.removeChild stem
        let root' := updateAt root parent (fun n => n.removeChild stem)
        if ¬ pnode'.is_document = true ∧ pnode'.children.isEmpty then
          removeDocFuel fuel root' parent
        else root'
      else
        updateAt root parent (fun n => n.addChild stem (Node.lost target (some (pyTitle stem))))

theorem removeDocFuel_succ (fuel : Nat) (root : Node) (path : List String) :
    removeDocFuel (fuel + 1) root path =
      if pathStem path = "index" then
        if parentParts path = [] then Node.lost root (some "Home")
        else removeStep fuel root (parentParts path).dropLast
          (((parentParts path).getLast?).getD "")
      else removeStep fuel root (parentParts path) (pathStem path) := rfl

theorem sub_removeStep (fuel : Nat)
    (ih : ∀ (root : Node) (path : List String), NodeWF root →
      NodeSub (removeDocFuel fuel root path) root)
    (root : Node) (parent : List String) (stem : String) (hwf : NodeWF root) :
    NodeSub (removeStep fuel root parent stem) root := by
  unfold removeStep
  split
  · exact sub_refl root
  · rename_i pnode hp
    split
    · exact sub_refl root
    · rename_i target ht
      have hwfp : NodeWF pnode := nodeWF_getNode parent hwf hp
      have hsub' : NodeSub (updateAt root parent (fun n => n.removeChild stem)) root :=
        sub_updateAt _ parent root pnode hp (sub_removeChild hwfp)
      have hwf' : NodeWF (updateAt root parent (fun n => n.removeChild stem)) :=
        nodeWF_updateAt parent _ (fun m hm => nodeWF_removeChild hm) root hwf
      by_cases hempty : target.children.isEmpty = true
      · rw [if_pos hempty]
        show NodeSub
          (if ¬ (pnode.removeChild stem).is_document = true
              ∧ ((pnode.removeChild stem).children.isEmpty = true) then
            removeDocFuel fuel (updateAt root parent (fun n => n.removeChild stem)) parent
          else updateAt root parent (fun n => n.removeChild stem)) root
        by_cases hcond : ¬ (pnode.removeChild stem).is_document = true
            ∧ ((pnode.removeChild stem).children.isEmpty = true)
        · rw [if_pos hcond]
          exact sub_trans (ih _ parent hwf') hsub'
        · rw [if_neg hcond]
          exact hsub'
      · rw [if_neg hempty]
        exact sub_updateAt _ parent root pnode hp
          (sub_addChild ht (sub_lost target (some (pyTitle stem))))

/-- `remove_document` never creates a resolvable path: its result is a
pathwise restriction of its input, for every fuel. -/
theorem sub_removeDocFuel :
    ∀ (fuel : Nat) (root : Node) (path : List String), NodeWF root →
      NodeSub (removeDocFuel fuel root path) root := by
  intro fuel
  induction fuel with
  | zero => intro root path _; exact sub_refl root
  | succ fuel ih =>
    intro root path hwf
    rw [removeDocFuel_succ]
    by_cases hidx : pathStem path = "index"
    · rw [if_pos hidx]
      by_cases hroot : parentParts path = []
      · rw [if_pos hroot]
        exact sub_lost root (some "Home")
      · rw [if_neg hroot]
        exact sub_removeStep fuel ih root _ _ hwf
    · rw [if_neg hidx]
      exact sub_removeStep fuel ih root _ _ hwf

theorem getNode_none_of_sub {a b : Node} {p : List String} (hsub : NodeSub a b)
    (h : getNode b p = none) : getNode a p = none := by
  cases hg : getNode a p with
  | none => rfl
  | some n =>
    have := hsub p (by rw [hg]; rfl)
    rw [h] at this
    simp at this

theorem removeChild_is_document (n : Node) (s : String) :
    (n.removeChild s).is_document = n.is_document := by
  obtain ⟨t, d, cs⟩ := n
  rfl

theorem removeChild_children (n : Node) (s : String) :
    (n.removeChild s).children = dictErase n.children s := by
  obtain ⟨t, d, cs⟩ := n
  rfl

theorem removeStep_childless (fuel : Nat) (root : Node) (parent : List String)
    (stem : String) (pnode target : Node)
    (hp : getNode root parent = some pnode) (ht : pnode.getChild stem = some target)
    (htgt : target.children.isEmpty = true) :
    removeStep fuel root parent stem =
      if ¬ (pnode.removeChild stem).is_document = true
          ∧ ((pnode.removeChild stem).children.isEmpty = true) then
        removeDocFuel fuel (updateAt root parent (fun n => n.removeChild stem)) parent
      else updateAt root parent (fun n => n.removeChild stem) := by
  unfold removeStep
  simp only [hp, ht, htgt, if_true]

theorem getChild_removeChild_self {pnode target : Node} {stem : String}
    (hwfp : NodeWF pnode) (ht : pnode.getChild stem = some target) :
    (pnode.removeChild stem).getChild stem = none := by
  obtain ⟨t, d, cs⟩ := pnode
  exact dictGet?_dictErase_self cs stem (nodeWF_children_nodup hwfp)

/-- C4 amended: on a well-formed tree, removing a childless document node
removes it from its parent's children, and — provided the parent segment is
a plain name (its `Path.stem` is itself and it is not `index`, since the
recursion re-parses `Path(*parent)`) — when the parent was a placeholder
whose only child it was, the parent is pruned from the tree entirely. -/
theorem remove_document_prunes (root : Node) (anc : List String)
    (pseg fname stem : String) (pnode target : Node) (hwf : NodeWF root)
    (hstem : pyStem fname = stem) (hidx : stem ≠ "index")
    (hpseg : pyStem pseg = pseg) (hpidx : pseg ≠ "index")
    (hp : getNode root (anc ++ [pseg]) = some pnode)
    (ht : pnode.getChild stem = some target)
    (htgt : target.children = []) :
    getNode (DocumentTree.remove_document root ((anc ++ [pseg]) ++ [fname]))
        ((anc ++ [pseg]) ++ [stem]) = none ∧
    (pnode.is_document = false → pnode.children = [(stem, target)] →
      getNode (DocumentTree.remove_document root ((anc ++ [pseg]) ++ [fname]))
        (anc ++ [pseg]) = none) := by
  have hwfp : NodeWF pnode := nodeWF_getNode _ hwf hp
  have htgt' : target.children.isEmpty = true := by rw [htgt]; rfl
  unfold DocumentTree.remove_document
  rw [show ((anc ++ [pseg]) ++ [fname]).length + 2 = (anc.length + 3) + 1 by
    simp [List.length_append]]
  rw [removeDocFuel_succ, pathStem_concat, hstem, if_neg hidx, parentParts_concat]
  rw [removeStep_childless (anc.length + 3) root (anc ++ [pseg]) stem pnode target
    hp ht htgt']
  have hpn' : getNode (updateAt root (anc ++ [pseg]) (fun n => n.removeChild stem))
      (anc ++ [pseg]) = some (pnode.removeChild stem) :=
    getNode_updateAt_self _ _ root pnode hp
  have hwf' : NodeWF (updateAt root (anc ++ [pseg]) (fun n => n.removeChild stem)) :=
    nodeWF_updateAt _ _ (fun m hm => nodeWF_removeChild hm) root hwf
  have hnone1 : getNode (updateAt root (anc ++ [pseg]) (fun n => n.removeChild stem))
      ((anc ++ [pseg]) ++ [stem]) = none := by
    rw [getNode_concat, hpn', Option.some_bind]
    exact getChild_removeChild_self hwfp ht
  constructor
  · by_cases hcond : ¬ (pnode.removeChild stem).is_document = true
        ∧ ((pnode.removeChild stem).children.isEmpty = true)
    · rw [if_pos hcond]
      exact getNode_none_of_sub (sub_removeDocFuel _ _ (anc ++ [pseg]) hwf') hnone1
    · rw [if_neg hcond]
      exact hnone1
  · intro hdoc honly
    have hch : (pnode.removeChild stem).children = [] := by
      rw [removeChild_children, honly]
      show dictErase [(stem, target)] stem = []
      rw [dictErase, if_pos rfl]
    have hcond : ¬ (pnode.removeChild stem).is_document = true
        ∧ ((pnode.removeChild stem).children.isEmpty = true) := by
      constructor
      · rw [removeChild_is_document, hdoc]
        simp
      · rw [hch]; rfl
    rw [if_pos hcond]
    rw [show anc.length + 3 = (anc.length + 2) + 1 from rfl]
    rw [removeDocFuel_succ, pathStem_concat, hpseg, if_neg hpidx, parentParts_concat]
    obtain ⟨a', ha', hax'⟩ := getNode_some_of_concat hpn'
    have hch' : (pnode.removeChild stem).children.isEmpty = true := by rw [hch]; rfl
    rw [removeStep_childless (anc.length + 2) _ anc pseg a' (pnode.removeChild stem)
      ha' hax' hch']
    have hwfa' : NodeWF a' := nodeWF_getNode _ hwf' ha'
    have hpn'' : getNode (updateAt
        (updateAt root (anc ++ [pseg]) (fun n => n.removeChild stem))
        anc (fun n => n.removeChild pseg)) anc = some (a'.removeChild pseg) :=
      getNode_updateAt_self _ _ _ a' ha'
    have hwf'' : NodeWF (updateAt
        (updateAt root (anc ++ [pseg]) (fun n => n.removeChild stem))
        anc (fun n => n.removeChild pseg)) :=
      nodeWF_updateAt _ _ (fun m hm => nodeWF_removeChild hm) _ hwf'
    have hnone2 : getNode (updateAt
        (updateAt root (anc ++ [pseg]) (fun n => n.removeChild stem))
        anc (fun n => n.removeChild pseg)) (anc ++ [pseg]) = none := by
      rw [getNode_concat, hpn'', Option.some_bind]
      exact getChild_removeChild_self hwfa' hax'
    by_cases hcond2 : ¬ (a'.removeChild pseg).is_document = true
        ∧ ((a'.removeChild pseg).children.isEmpty = true)
    · rw [if_pos hcond2]
      exact getNode_none_of_sub (sub_removeDocFuel _ _ anc hwf'') hnone2
    · rw [if_neg hcond2]
      exact hnone2

/-- C4 fails as stated: the recursive prune re-parses `Path(*parent)`, and
`Path("a.b").stem` is `"a"`, so after removing the only child of the
placeholder `a.b` the recursion looks up a child named `a`, finds nothing,
and leaves the empty placeholder `a.b` in the tree instead of pruning it. -/
theorem remove_document_prune_counterexample :
    DocumentTree.remove_document
        (Node.mk (some "Home") false
          [("a.b", Node.mk (some "A.b") false [("c", Node.mk (some "C") true [])])])
        ["a.b", "c.html"]
      = Node.mk (some "Home") false [("a.b", Node.mk (some "A.b") false [])] ∧
    getNode (DocumentTree.remove_document
        (Node.mk (some "Home") false
          [("a.b", Node.mk (some "A.b") false [("c", Node.mk (some "C") true [])])])
        ["a.b", "c.html"]) ["a.b"]
      = some (Node.mk (some "A.b") false []) ∧
    getNode (DocumentTree.remove_document
        (Node.mk (some "Home") false
          [("a.b", Node.mk (some "A.b") false [("c", Node.mk (some "C") true [])])])
        ["a.b", "c.html"]) ["a.b", "c"]
      = none :=
  ⟨rfl, rfl, rfl⟩

/-- Witness for the amended C4: scenario D — `blog` is a placeholder whose
only child is `post1`; removing `blog/post1.html` prunes `blog` entirely. -/
theorem remove_document_prunes_witness :
    NodeWF (Node.mk (some "Home") false
      [("blog", Node.mk (some "Blog") false
        [("post1", Node.mk (some "Post1") true [])])]) ∧
    pyStem "post1.html" = "post1" ∧ ("post1" : String) ≠ "index" ∧
    pyStem "blog" = "blog" ∧ ("blog" : String) ≠ "index" ∧
    (getNode (DocumentTree.remove_document
        (Node.mk (some "Home") false
          [("blog", Node.mk (some "Blog") false
            [("post1", Node.mk (some "Post1") true [])])])
        (([] ++ ["blog"]) ++ ["post1.html"]))
        (([] ++ ["blog"]) ++ ["post1"]) = none ∧
     ((Node.mk (some "Blog") false
        [("post1", Node.mk (some "Post1") true [])]).is_document = false →
      (Node.mk (some "Blog") false
        [("post1", Node.mk (some "Post1") true [])]).children
        = [("post1", Node.mk (some "Post1") true [])] →
      getNode (DocumentTree.remove_document
        (Node.mk (some "Home") false
          [("blog", Node.mk (some "Blog") false
            [("post1", Node.mk (some "Post1") true [])])])
        (([] ++ ["blog"]) ++ ["post1.html"]))
        ([] ++ ["blog"]) = none)) := by
  have wpost : NodeWF (Node.mk (some "Post1") true []) := by
    refine NodeWF.mk (by decide) ?_
    intro p hp
    simp at hp
  have wblog : NodeWF (Node.mk (some "Blog") false
      [("post1", Node.mk (some "Post1") true [])]) := by
    refine NodeWF.mk (by decide) ?_
    intro p hp
    simp only [List.mem_singleton] at hp
    subst hp
    exact wpost
  have wroot : NodeWF (Node.mk (some "Home") false
      [("blog", Node.mk (some "Blog") false
        [("post1", Node.mk (some "Post1") true [])])]) := by
    refine NodeWF.mk (by decide) ?_
    intro p hp
    simp only [List.mem_singleton] at hp
    subst hp
    exact wblog
  refine ⟨wroot, by decide, by decide, by decide, by decide, ?_⟩
  exact remove_document_prunes
    (Node.mk (some "Home") false
      [("blog", Node.mk (some "Blog") false
        [("post1", Node.mk (some "Post1") true [])])])
    [] "blog" "post1.html" "post1"
    (Node.mk (some "Blog") false [("post1", Node.mk (some "Post1") true [])])
    (Node.mk (some "Post1") true [])
    wroot (by decide) (by decide) (by decide) (by decide) rfl rfl rfl
